import Mathlib

/-!
CloudyKit/cloudy: handler chain dispatcher and scoped registry.

A shallow embedding of the request dispatcher of `cloudy` (`context.go`, `app.go`,
`controller.go`) together with a model of the hierarchical registry it drives.

* Registry scopes live in a heap (`Store`); a `Registry` value is the index of a scope.
* A Go handler is a value of `Prog`, a first-order description of what its `Handle`
  method does with the `*Context` it receives.
* A Go panic is the `Res.panic` outcome; the heap state at the moment of the panic is
  kept, because deferred calls observe it.
-/

namespace Cloudy

/-! ## Registry -/

/-- Type identity under which a binding is stored (`reflect.Type` in the source). -/
abbrev Key := String

/-- Resolved instance. -/
abbrev Value := String

/-- Failure conditions signalled by the registry. -/
inductive RegError where
  | NotFound
  | DisposeWithLiveChildren
  | OutstandingReferences
  deriving DecidableEq, Repr

/-- Modelled from the spec: the three binding kinds of section 3 (the registry
implementation is not among the sources, only `registry.Interface` is). The functions
receive the scope that resolves the key, and give the instance made for that scope. -/
inductive Binding where
  | value (v : Value)
  | factory (fn : Nat → Value)
  | initializer (fn : Nat → Value)

/-- Modelled from the spec: a scope node of section 3, with its own binding store, at most
one parent, a live-child reference count and the released mark set by `dispose`. -/
structure Scope where
  bindings : List (Key × Binding)
  parent : Option Nat
  liveChildren : Int
  disposed : Bool

/-- Modelled from the spec: the fork tree of section 3 as a heap of scopes; the scope with
identity `i` is `scopes[i]`, and a `Registry` value of the source is such an identity.
`memo` is the resolution cache of the scopes: under `(i, k)` the instance that a Factory
made for scope `i` when `i` first resolved `k`; it is kept per resolving scope and shared
with neither its parent nor its children. -/
structure Store where
  scopes : List Scope
  memo : List ((Nat × Key) × Value)

/-- Modelled from the spec: `registry.New()`, a store holding one top-level scope. -/
def Store.New : Store :=
  { scopes := [{ bindings := [], parent := none, liveChildren := 0, disposed := false }],
    memo := [] }

/-- Scope `i` of the heap, if allocated. -/
def Store.scope? (st : Store) (i : Nat) : Option Scope := st.scopes[i]?

/-- Replaces scope `i` of the heap by `f` of it. -/
def Store.modify (st : Store) (i : Nat) (f : Scope → Scope) : Store :=
  { st with scopes := st.scopes.modify f i }

/-- Modelled from the spec: the binding a Binding Store of section 4.1 holds for `k`. -/
def findBinding (k : Key) : List (Key × Binding) → Option Binding
  | [] => none
  | (k', b) :: rest => if k' = k then some b else findBinding k rest

/-- Modelled from the spec: Binding Store `bind(key, kind, payload)` of section 4.1,
registers or overwrites, last write wins. -/
def Scope.bind (sc : Scope) (k : Key) (b : Binding) : Scope :=
  { sc with bindings := (k, b) :: sc.bindings.filter (fun e => e.1 ≠ k) }

/-- Modelled from the spec: the resolution cache of scope `i` for `k`: the instance a
Factory made when scope `i` resolved `k` before, if it did. -/
def Store.cached (st : Store) (i : Nat) (k : Key) : Option Value :=
  (st.memo.find? (fun e => e.1.1 = i ∧ e.1.2 = k)).map (fun e => e.2)

/-- Modelled from the spec: the bottom-up lookup of section 3, with an explicit bound on the
number of scopes visited: the binding of `k` in scope `i` itself, else in the nearest
ancestor that binds it. Nothing is written to any scope. -/
def resolveAux (k : Key) : Nat → Store → Nat → Option Binding
  | 0, _, _ => none
  | fuel + 1, st, i =>
      match st.scope? i with
      | none => none
      | some sc =>
          match findBinding k sc.bindings with
          | some b => some b
          | none =>
              match sc.parent with
              | none => none
              | some p => resolveAux k fuel st p

/-- Modelled from the spec: the binding that scope `i` resolves `k` with: its own, else
the one of the nearest ancestor. A parent is allocated before its children, so `i + 1`
visits reach the root. -/
def Store.binding? (st : Store) (i : Nat) (k : Key) : Option Binding :=
  resolveAux k (i + 1) st i

/-- Modelled from the spec: `resolve(key)` of section 4.2 (`LoadType` in
`registry.Interface`) from scope `i`: check local bindings, else delegate to the parent,
else `NotFound`. A Value is returned as it is; a Factory runs for scope `i` on its first
resolution and the instance is cached for scope `i` only; an Initializer runs for scope
`i` on every resolution. -/
def Store.resolve (st : Store) (i : Nat) (k : Key) : Except RegError Value × Store :=
  match st.binding? i k with
  | none => (Except.error RegError.NotFound, st)
  | some (Binding.value v) => (Except.ok v, st)
  | some (Binding.initializer fn) => (Except.ok (fn i), st)
  | some (Binding.factory fn) =>
      match st.cached i k with
      | some v => (Except.ok v, st)
      | none => (Except.ok (fn i), { st with memo := ((i, k), fn i) :: st.memo })

/-- Modelled from the spec: `bindValue`/`bindFactory`/`bindInitializer` of section 4.2 on
scope `i` (`WithTypeAndValue`, `MapProvider`, `MapInitializer` in `registry.Interface`).
The new binding replaces what scope `i` had for `k`, its cached instance included. -/
def Store.bind (st : Store) (i : Nat) (k : Key) (b : Binding) : Store :=
  { st.modify i (fun sc => sc.bind k b) with
    memo := st.memo.filter (fun e => ¬ (e.1.1 = i ∧ e.1.2 = k)) }

/-- Modelled from the spec: `fork()` of section 4.2: a new child scope with an empty
binding store layered on `p`; the live-child count of `p` is incremented. Returns the
identity of the child. -/
def Store.Fork (st : Store) (p : Nat) : Nat × Store :=
  (st.scopes.length,
   { st with scopes :=
      (st.modify p (fun sc => { sc with liveChildren := sc.liveChildren + 1 })).scopes ++
        [{ bindings := [], parent := some p, liveChildren := 0, disposed := false }] })

/-- Live-child count of scope `i` (zero for an unallocated identity). -/
def Store.liveChildren (st : Store) (i : Nat) : Int :=
  match st.scope? i with
  | some sc => sc.liveChildren
  | none => 0

/-- Modelled from the spec: `dispose()` of section 4.2. With live children it signals
`DisposeWithLiveChildren` rather than proceeding; otherwise it marks the scope released,
decrements the live-child count of the parent and returns the scope's own count. -/
def Store.Dispose (st : Store) (i : Nat) : Except RegError Int × Store :=
  match st.scope? i with
  | none => (Except.ok 0, st)
  | some sc =>
      if 1 ≤ sc.liveChildren then (Except.error RegError.DisposeWithLiveChildren, st)
      else
        let st1 := st.modify i (fun s => { s with disposed := true })
        let st2 := match sc.parent with
          | none => st1
          | some p => st1.modify p (fun s => { s with liveChildren := s.liveChildren - 1 })
        (Except.ok sc.liveChildren, st2)

/-- Modelled from the spec: `mustDispose()` of section 4.2: like `dispose`, but a live-child
violation or a non-zero remaining reference count is a hard failure. -/
def Store.MustDispose (st : Store) (i : Nat) : Except RegError Unit × Store :=
  match st.Dispose i with
  | (Except.error e, st') => (Except.error e, st')
  | (Except.ok n, st') =>
      if n = 0 then (Except.ok (), st') else (Except.error RegError.OutstandingReferences, st')

/-- Every allocated scope was forked from a scope allocated before it. -/
def Store.WellFormed (st : Store) : Prop :=
  ∀ i sc p, st.scope? i = some sc → sc.parent = some p → p < i

/-! ## Handlers, contexts and the world they run in -/

/-- Behaviour of a handler's `Handle(c *Context)` method, as the sequence of effects it
performs. Handlers reach the chain only through `c.Next()`, the field `handlers` being
unexported. Of the exported fields of the context they may assign `Registry`, the one
that `requestRecover` reads back; assignments to the other exported fields are left out,
as `Next` and `requestRecover` read none of them and the release overwrites them all. -/
inductive Prog where
  /-- Return from the handler. -/
  | done : Prog
  /-- Increment the shared counter (the `counter++` of `TestContext_Advance`). -/
  | tick : Prog → Prog
  /-- Call `c.Next()`; continue with the first program when it returns a nil error and
  with the second when it returns an error. -/
  | next : Prog → Prog → Prog
  /-- Call `c.Registry.WithTypeAndValue(k, v)`. -/
  | bind : Key → Value → Prog → Prog
  /-- Call `c.Registry.Fork()` and keep the child scope alive. -/
  | fork : Prog → Prog
  /-- Assign `c.Registry = r`, where `r` is a registry the handler holds, or nil. -/
  | setRegistry : Option Nat → Prog → Prog
  /-- Assign `c.Registry = c.Registry.Fork()`. -/
  | forkRegistry : Prog → Prog
  /-- Go `panic(msg)`. -/
  | panic : String → Prog
  deriving DecidableEq, Repr

/-- A registered handler: an identity, used only by the invocation log, and the behaviour
of its `Handle` method. -/
structure Handler where
  id : Nat
  body : Prog
  deriving DecidableEq, Repr

/-- The `Context` struct of `context.go`. Pointers and interface values other than the
registry are opaque handles, `none` being nil. -/
structure Context where
  Name : String
  Registry : Option Nat
  Request : Option Nat
  Gen : Option Nat
  handlers : List Handler
  Response : Option Nat
  Params : List (String × String)
  body : Option Nat
  bodyBytes : List Nat
  bodyReady : Bool
  deriving DecidableEq, Repr

/-- The zero value `Context{}`. -/
def Context.zero : Context :=
  { Name := "", Registry := none, Request := none, Gen := none, handlers := [],
    Response := none, Params := [], body := none, bodyBytes := [], bodyReady := false }

/-- One entry of the invocation log: the handler whose `Handle` was entered and the
identities of `c.handlers` at that moment. -/
structure Invocation where
  handler : Nat
  remaining : List Nat
  deriving DecidableEq, Repr

/-- Value carried by a Go panic. -/
inductive Panic where
  | str (msg : String)
  | nilPointer
  | registry (e : RegError)
  deriving DecidableEq, Repr

/-- The error value returned by `Context.Next`. -/
inductive NextError where
  | ExhaustedChain
  deriving DecidableEq, Repr

/-- A route registered with the router: method, path and the data captured by the
callback closure built in `AddHandlerContextName`. -/
structure Route where
  method : String
  path : String
  registry : Nat
  name : String
  filters : List Handler
  deriving DecidableEq, Repr

/-- Everything outside the running context: the registry heap, `contextPool`, the router
table and URL map of the kernel, the counter handlers share, and two logs that no
operation reads: `invoked` records each `handler.Handle(c)` call of `Next`, and
`mustDisposed` records each `MustDispose()` call of `requestRecover`. -/
structure World where
  reg : Store
  contextPool : List Context
  routes : List Route
  URLGen : List (String × String)
  counter : Nat
  invoked : List Invocation
  mustDisposed : List Nat

/-- Outcome of running code against a context: normal return with a value, a panic
unwinding the stack, or `stuck` when the bound on nested `Next` calls was too small. -/
inductive Res (α : Type) where
  | ok (a : α) (c : Context) (w : World)
  | panic (p : Panic) (c : Context) (w : World)
  | stuck

/-- Context and world an outcome ends in. -/
def Res.state {α : Type} : Res α → Option (Context × World)
  | Res.ok _ c w => some (c, w)
  | Res.panic _ c w => some (c, w)
  | Res.stuck => none

/-- Invocation log an outcome ends with. -/
def Res.log {α : Type} (r : Res α) : Option (List Invocation) :=
  r.state.map (fun s => s.2.invoked)

/-- Runs a handler program against context `c`, with `nxt` as the meaning of `c.Next()`. -/
def execWith (nxt : Context → World → Res (Option NextError)) :
    Prog → Context → World → Res Unit
  | Prog.done, c, w => Res.ok () c w
  | Prog.tick k, c, w => execWith nxt k c { w with counter := w.counter + 1 }
  | Prog.next k1 k2, c, w =>
      match nxt c w with
      | Res.ok none c' w' => execWith nxt k1 c' w'
      | Res.ok (some _) c' w' => execWith nxt k2 c' w'
      | Res.panic p c' w' => Res.panic p c' w'
      | Res.stuck => Res.stuck
  | Prog.bind k v p, c, w =>
      match c.Registry with
      | none => Res.panic Panic.nilPointer c w
      | some s => execWith nxt p c { w with reg := w.reg.bind s k (Binding.value v) }
  | Prog.fork p, c, w =>
      match c.Registry with
      | none => Res.panic Panic.nilPointer c w
      | some s => execWith nxt p c { w with reg := (w.reg.Fork s).2 }
  | Prog.setRegistry r p, c, w => execWith nxt p { c with Registry := r } w
  | Prog.forkRegistry p, c, w =>
      match c.Registry with
      | none => Res.panic Panic.nilPointer c w
      | some s =>
          execWith nxt p { c with Registry := some (w.reg.Fork s).1 }
            { w with reg := (w.reg.Fork s).2 }
  | Prog.panic msg, c, w => Res.panic (Panic.str msg) c w

/-- The call `handler.Handle(c)`; the invocation is logged on entry. -/
def Handler.Handle (nxt : Context → World → Res (Option NextError)) (h : Handler)
    (c : Context) (w : World) : Res Unit :=
  execWith nxt h.body c
    { w with invoked := w.invoked ++ [⟨h.id, c.handlers.map (fun x => x.id)⟩] }

/-- The method `Context.Next` of `context.go` where nested calls may pop at most `n` handlers. -/
def NextAt : Nat → Context → World → Res (Option NextError)
  | 0, c, w =>
      match c.handlers with
      | [] => Res.ok (some NextError.ExhaustedChain) c w
      | _ :: _ => Res.stuck
  | n + 1, c, w =>
      match c.handlers with
      | [] => Res.ok (some NextError.ExhaustedChain) c w
      | handler :: rest =>
          match handler.Handle (NextAt n) { c with handlers := rest } w with
          | Res.ok _ c' w' => Res.ok none c' w'
          | Res.panic p c' w' => Res.panic p c' w'
          | Res.stuck => Res.stuck

/-- The method `Context.Next` of `context.go`: fails when no handler remains, else pops the head of
`c.handlers` and invokes it. Each call pops one handler, so the nesting depth is bounded
by the number of remaining handlers. -/
def Context.Next (c : Context) (w : World) : Res (Option NextError) :=
  NextAt c.handlers.length c w

/-- Modelled from the spec: `dispatch(context, handlers)` of section 4.3 (`DispatchNext`,
called by `app.go` and `request_test.go` but not among the sources): installs the sequence
and the request data on the context and invokes the first handler through `Next`. -/
def DispatchNext (c : Context) (name : String) (rw r : Option Nat)
    (v : List (String × String)) (registry : Nat) (handlers : List Handler) (w : World) :
    Res (Option NextError) :=
  Context.Next
    { c with Name := name, Response := rw, Request := r, Params := v,
             Registry := some registry, handlers := handlers } w

/-- The function `newRequestContext` of `app.go`: `contextPool.Get()`, a pooled context or a new one. -/
def newRequestContext (w : World) : Context × World :=
  match w.contextPool with
  | [] => (Context.zero, w)
  | c :: rest => (c, { w with contextPool := rest })

/-- The function `requestRecover` of `app.go`: captures the scope, resets the context, puts it back in
the pool and calls `MustDispose` on the captured scope. -/
def requestRecover (c : Context) (w : World) : Res Unit :=
  let vars := c.Registry
  let c0 := Context.zero
  let w1 := { w with contextPool := c0 :: w.contextPool }
  match vars with
  | none => Res.panic Panic.nilPointer c0 w1
  | some s =>
      match w1.reg.MustDispose s with
      | (Except.ok _, st) =>
          Res.ok () c0 { w1 with reg := st, mustDisposed := w1.mustDisposed ++ [s] }
      | (Except.error e, st) =>
          Res.panic (Panic.registry e) c0
            { w1 with reg := st, mustDisposed := w1.mustDisposed ++ [s] }

/-- The statement `defer requestRecover(c)`: runs after the body on normal return and
while a panic unwinds; a panic raised by the deferred call replaces the one in flight. -/
def deferRequestRecover {α : Type} : Res α → Res Unit
  | Res.ok _ c w => requestRecover c w
  | Res.panic p c w =>
      match requestRecover c w with
      | Res.ok _ c' w' => Res.panic p c' w'
      | Res.panic p' c' w' => Res.panic p' c' w'
      | Res.stuck => Res.stuck
  | Res.stuck => Res.stuck

/-- The body of the callback closure that `AddHandlerContextName` hands to the router:
takes a context from the pool, forks the route's registry and dispatches the chain. -/
def Route.dispatch (rt : Route) (rw r : Option Nat) (v : List (String × String))
    (w : World) : Res (Option NextError) :=
  let cw := newRequestContext w
  let fk := cw.2.reg.Fork rt.registry
  DispatchNext cw.1 rt.name rw r v fk.1 rt.filters { cw.2 with reg := fk.2 }

/-- The callback closure of `AddHandlerContextName` applied to a request: the dispatch
with `requestRecover` deferred. -/
def Route.serve (rt : Route) (rw r : Option Nat) (v : List (String × String))
    (w : World) : Res Unit :=
  deferRequestRecover (rt.dispatch rw r v w)

/-! ## Kernel, routes and controller actions -/

/-- The struct `MiddlewareBundle` of `app.go`. -/
structure MiddlewareBundle where
  handlers : List Handler
  deriving DecidableEq, Repr

/-- The method `MiddlewareBundle.ClearMiddlewares`. -/
def MiddlewareBundle.ClearMiddlewares (_b : MiddlewareBundle) : MiddlewareBundle :=
  { handlers := [] }

/-- The method `MiddlewareBundle.AddMiddleware`. -/
def MiddlewareBundle.AddMiddleware (b : MiddlewareBundle) (filters : List Handler) :
    MiddlewareBundle :=
  { handlers := b.handlers ++ filters }

/-- The method `MiddlewareBundle.reSlice`: a fresh slice holding the bundle's handlers followed by
`filters`. -/
def MiddlewareBundle.reSlice (b : MiddlewareBundle) (filters : List Handler) : List Handler :=
  ([] ++ b.handlers) ++ filters

/-- The `Kernel` struct of `app.go`. The router and the URL map it points to are shared by
every copy of the kernel and live in the `World`. -/
structure Kernel extends MiddlewareBundle where
  Registry : Nat
  Prefix : String
  deriving DecidableEq, Repr

/-- Modelled from the spec: `Router.AddRoute` of the external router (section 1 lists the
routing trie as a collaborator that maps method and path to a registered handler): the
route is recorded in the table. -/
def World.AddRoute (w : World) (rt : Route) : World :=
  { w with routes := w.routes ++ [rt] }

/-- Pieces of a character sequence between occurrences of `|`. -/
def splitBar : List Char → List (List Char)
  | [] => [[]]
  | c :: rest =>
      if c = '|' then [] :: splitBar rest
      else
        match splitBar rest with
        | seg :: segs => (c :: seg) :: segs
        | [] => [[c]]

/-- The call `strings.Split(method, "|")`. -/
def splitMethods (method : String) : List String :=
  (splitBar method.data).map String.mk

/-- The method `Kernel.AddHandlerContextName` of `app.go`: the chain is the kernel middleware, then
the filters, then the handler; one route per method of `method`. -/
def Kernel.AddHandlerContextName (kernel : Kernel) (registry : Option Nat)
    (name method path : String) (handler : Handler) (filters : List Handler)
    (w : World) : World :=
  let filters := kernel.reSlice filters ++ [handler]
  let registry := match registry with
    | none => kernel.Registry
    | some r => r
  (splitMethods method).foldl
    (fun w m => w.AddRoute
      { method := m, path := kernel.Prefix ++ path, registry := registry, name := name,
        filters := filters })
    w

/-- The marker of a parameter segment starting right after a `/`: the next character is
`:` or `*` and at least one character other than `/` follows it. -/
def paramMarker : List Char → Option Char
  | m :: n :: _ => if (m = ':' ∨ m = '*') ∧ n ≠ '/' then some m else none
  | _ => none

/-- The call `acRegex.ReplaceAllStringFunc` of `controller.go` with its replacement function, for
the expression `/[:*][^/]+`. With `skip` set the scan is inside a match and drops
characters up to the next `/`. -/
def acReplace : Bool → List Char → List Char
  | _, [] => []
  | skip, c :: rest =>
      if c = '/' then
        match paramMarker rest with
        | some m => (if m = '*' then ['%', 'v'] else ['/', '%', 'v']) ++ acReplace true rest
        | none => c :: acReplace false rest
      else if skip then acReplace true rest
      else c :: acReplace false rest

/-- URL template stored for a route path. -/
def urlTemplate (path : String) : String :=
  String.mk (acReplace false path.data)

/-- Assignment `m[k] = v` on a Go map. -/
def mapSet (m : List (String × String)) (k v : String) : List (String × String) :=
  (k, v) :: m.filter (fun e => e.1 ≠ k)

/-- A method found by reflection: its name and what calling it does. -/
structure Method where
  name : String
  func : Handler
  deriving DecidableEq, Repr

/-- The controller type seen through `reflect`: the name of the struct type, its exported
methods with a value receiver and those with a pointer receiver. -/
structure ControllerType where
  name : String
  valueMethods : List Method
  pointerMethods : List Method
  deriving DecidableEq, Repr

/-- The method `reflect.Type.MethodByName` on a method set. -/
def MethodByName (methods : List Method) (action : String) : Option Method :=
  methods.find? (fun m => m.name = action)

/-- Method set of the pointer type `*T` (the `mx.typ` of a mapper). -/
def ControllerType.ptrMethods (t : ControllerType) : List Method :=
  t.valueMethods ++ t.pointerMethods

/-- Method set of the struct type `T` (`mx.typ.Elem()`). -/
def ControllerType.elemMethods (t : ControllerType) : List Method :=
  t.valueMethods

/-- The string `mx.typ.String()` for the pointer type. -/
def ControllerType.String (t : ControllerType) : String := "*" ++ t.name

/-- The `Mapper` struct of `controller.go`; `typ` is the pointer type of the controller. -/
structure Mapper extends MiddlewareBundle where
  Prefix : String
  Name : String
  typ : ControllerType
  app : Kernel
  Registry : Option Nat
  deriving DecidableEq, Repr

/-- The panic raised by `BindAction` for an unknown action. -/
def InvalidAction (action : String) (typ : ControllerType) : Panic :=
  Panic.str ("Inválid action " ++ action ++ " not found in controller " ++ typ.String)

/-- The `controllerHandler` built for a bound method: handling a request calls the
method. -/
def controllerHandler (_isPtr : Bool) (m : Method) : Handler := m.func

/-- Outcome of setup code: the world after it, or a panic and the world at that point. -/
inductive Setup where
  | ok (w : World)
  | panic (p : Panic) (w : World)

/-- The part of `Mapper.BindAction` after the method lookup: writes the URL template and
registers the route. -/
def Mapper.bindFound (mx : Mapper) (method path action : String) (filters : List Handler)
    (isPtr : Bool) (m : Method) (w : World) : World :=
  let tpl := urlTemplate (mx.app.Prefix ++ mx.Prefix ++ path)
  let w1 := { w with URLGen := mapSet w.URLGen (mx.Name ++ "." ++ action) tpl }
  mx.app.AddHandlerContextName mx.Registry mx.Name method (mx.Prefix ++ path)
    (controllerHandler isPtr m) (mx.reSlice filters) w1

/-- The method `Mapper.BindAction` of `controller.go`. -/
def Mapper.BindAction (mx : Mapper) (method path action : String) (filters : List Handler)
    (w : World) : Setup :=
  match MethodByName mx.typ.ptrMethods action with
  | some m => Setup.ok (mx.bindFound method path action filters true m w)
  | none =>
      match MethodByName mx.typ.elemMethods action with
      | none => Setup.panic (InvalidAction action mx.typ) w
      | some m => Setup.ok (mx.bindFound method path action filters false m w)

/-! ## Vocabulary of the properties -/

/-- Log entries of invoking every handler of a sequence in order. -/
def invocationsOf : List Handler → List Invocation
  | [] => []
  | h :: rest => ⟨h.id, rest.map (fun x => x.id)⟩ :: invocationsOf rest

/-- The outcome `r` of code started on `c` and `w` popped the first `m` remaining
handlers and nothing else of the remaining sequence, each logged as it was entered. -/
def Advances {α : Type} (c : Context) (w : World) (r : Res α) : Prop :=
  ∃ m c' w', r.state = some (c', w') ∧ c'.handlers = c.handlers.drop m ∧
    w'.invoked = w.invoked ++ (invocationsOf c.handlers).take m

/-- Context and invocation log an outcome ends with. -/
def Res.trace {α : Type} (r : Res α) : Option (Context × List Invocation) :=
  r.state.map (fun s => (s.1, s.2.invoked))

/-- The program never calls `c.Next()`, on any path. -/
def Prog.noNext : Prog → Bool
  | Prog.done => true
  | Prog.tick k => k.noNext
  | Prog.next _ _ => false
  | Prog.bind _ _ k => k.noNext
  | Prog.fork k => k.noNext
  | Prog.setRegistry _ k => k.noNext
  | Prog.forkRegistry k => k.noNext
  | Prog.panic _ => true

/-- The program calls `c.Next()` exactly once, on every path: run on a context that
carries a registry it reaches a `Next` call without panicking and with a registry still
on the context, so that the registry calls of the handlers after it do not panic either,
and it never calls `Next` again, whatever that call returned. -/
def Prog.nextOnce : Prog → Bool
  | Prog.done => false
  | Prog.tick k => k.nextOnce
  | Prog.next k1 k2 => k1.noNext && k2.noNext
  | Prog.bind _ _ k => k.nextOnce
  | Prog.fork k => k.nextOnce
  | Prog.setRegistry r k => r.isSome && k.nextOnce
  | Prog.forkRegistry k => k.nextOnce
  | Prog.panic _ => false

/-- The program never assigns `c.Registry`. -/
def Prog.keepsRegistry : Prog → Bool
  | Prog.done => true
  | Prog.tick k => k.keepsRegistry
  | Prog.next k1 k2 => k1.keepsRegistry && k2.keepsRegistry
  | Prog.bind _ _ k => k.keepsRegistry
  | Prog.fork k => k.keepsRegistry
  | Prog.setRegistry _ _ => false
  | Prog.forkRegistry _ => false
  | Prog.panic _ => true

/-- Handlers remaining and invocation log an outcome ends with. -/
def Res.progress {α : Type} (r : Res α) : Option (List Handler × List Invocation) :=
  r.state.map (fun s => (s.1.handlers, s.2.invoked))

/-- The handler body of `TestContext_Advance`: `counter++` and then `c.Next()`. -/
def countAndAdvance : Prog := Prog.tick (Prog.next Prog.done Prog.done)

/-- The world at process start: a registry holding the root scope, an empty pool, no
routes. -/
def World.fresh : World :=
  { reg := Store.New, contextPool := [], routes := [], URLGen := [], counter := 0,
    invoked := [], mustDisposed := [] }

/-- Identities of the handlers entered, in order of entry. -/
def World.entered (w : World) : List Nat := w.invoked.map (fun e => e.handler)

/-- The outcome `r` of code started on `w` left everything handlers cannot reach as it
was: the context pool, the `MustDispose` log, the router table and the URL map. -/
def Framed {α : Type} (w : World) (r : Res α) : Prop :=
  ∀ c' w', r.state = some (c', w') →
    w'.contextPool = w.contextPool ∧ w'.mustDisposed = w.mustDisposed ∧
    w'.routes = w.routes ∧ w'.URLGen = w.URLGen

/-- A value of Go type `any` that holds a kernel: either a pointer `*Kernel` to a kernel
object, or a `Kernel` struct, which is a copy of its own. -/
inductive KernelDyn where
  | ptr (addr : Nat)
  | struct (k : Kernel)
  deriving DecidableEq, Repr

/-- The world together with the kernel objects of the process. A `*Kernel` is the index of
an object in `kernels`. `kernelSlots` holds, per scope, the value bound under the key
`KernelType`; these bindings are kept apart from the other bindings of the registry
because their values are kernels. -/
structure AppState where
  w : World
  kernels : List Kernel
  kernelSlots : List (Nat × KernelDyn)

/-- The value bound under `KernelType` in scope `i` itself, if any. -/
def slotGet (slots : List (Nat × KernelDyn)) (i : Nat) : Option KernelDyn :=
  (slots.find? (fun e => e.1 = i)).map (fun e => e.2)

/-- Modelled from the spec: `bindValue` of section 4.2 (`WithTypeAndValue` in
`registry.Interface`) for the key `KernelType` on scope `i`; registers or overwrites. -/
def slotSet (slots : List (Nat × KernelDyn)) (i : Nat) (d : KernelDyn) :
    List (Nat × KernelDyn) :=
  (i, d) :: slots.filter (fun e => e.1 ≠ i)

/-- Modelled from the spec: the bottom-up lookup of section 3 for the key `KernelType`,
with an explicit bound on the number of scopes visited. -/
def loadKernelAux : Nat → Store → List (Nat × KernelDyn) → Nat → Option KernelDyn
  | 0, _, _, _ => none
  | fuel + 1, st, slots, i =>
      match st.scope? i with
      | none => none
      | some sc =>
          match slotGet slots i with
          | some d => some d
          | none =>
              match sc.parent with
              | none => none
              | some p => loadKernelAux fuel st slots p

/-- Modelled from the spec: `resolve(key)` of section 4.2 (`LoadType` in
`registry.Interface`) for the key `KernelType` from scope `i`: the value is returned as
it was bound. -/
def AppState.LoadKernelType (a : AppState) (i : Nat) : Option KernelDyn :=
  loadKernelAux (i + 1) a.w.reg a.kernelSlots i

/-- The panic of the type assertion `.(*Kernel)` on a value whose dynamic type is
`Kernel`. -/
def kernelAssertionPanic : Panic :=
  Panic.str "interface conversion: interface {} is cloudy.Kernel, not *cloudy.Kernel"

/-- The function `GetKernel` of `app.go`: `c.LoadType(KernelType).(*Kernel)`. -/
def GetKernel (a : AppState) (c : Nat) : Except Panic Nat :=
  match a.LoadKernelType c with
  | some (KernelDyn.ptr p) => Except.ok p
  | some (KernelDyn.struct _) => Except.error kernelAssertionPanic
  | none => Except.error (Panic.registry RegError.NotFound)

/-- The function `NewKernel` of `app.go`: a kernel object on a new registry, bound in it
under `KernelType` as a pointer. The URL map, the router and the emitter are bound as
opaque values. Returns the pointer and the state. -/
def NewKernel : Nat × AppState :=
  let reg := ((Store.New.bind 0 "link.URLGen" (Binding.value "kernel.URLGen")).bind 0
    "*router.Router" (Binding.value "kernel.Router")).bind 0
    "event.Emitter" (Binding.value "kernel.emitter")
  (0, { w := { World.fresh with reg := reg },
        kernels := [{ handlers := [], Registry := 0, Prefix := "" }],
        kernelSlots := slotSet [] 0 (KernelDyn.ptr 0) })

/-- The method `Kernel.Root` of `app.go` on the kernel object at `kp`. -/
def Kernel.Root (kp : Nat) (a : AppState) : Except Panic Nat :=
  match a.kernels[kp]? with
  | none => Except.error Panic.nilPointer
  | some kernel => GetKernel a kernel.Registry

/-- The method `Kernel.Snapshot` of `app.go` on the kernel object at `kp`: copies the
kernel, forks its registry, binds the copy `newKernel`, a struct and not a pointer, under
`KernelType` in the forked scope, and returns a pointer to the copy. -/
def Kernel.Snapshot (kp : Nat) (a : AppState) : Except Panic (Nat × AppState) :=
  match a.kernels[kp]? with
  | none => Except.error Panic.nilPointer
  | some kernel =>
      let fk := a.w.reg.Fork kernel.Registry
      let newKernel : Kernel := { kernel with Registry := fk.1 }
      Except.ok (a.kernels.length,
        { w := { a.w with reg := fk.2 },
          kernels := a.kernels ++ [newKernel],
          kernelSlots := slotSet a.kernelSlots fk.1 (KernelDyn.struct newKernel) })

/-- The method `Kernel.Fork` of `app.go`: a copy of the kernel with its own middleware
slice; the registry of the copy is the registry of the original, the source leaves the
fork of the registry commented out. -/
def Kernel.Fork (kernel : Kernel) : Kernel :=
  { kernel with handlers := kernel.reSlice [] }

/-- The method `Kernel.AddHandlerName` of `app.go`. -/
def Kernel.AddHandlerName (kernel : Kernel) (name method path : String) (handler : Handler)
    (filters : List Handler) (w : World) : World :=
  kernel.AddHandlerContextName (some kernel.Registry) name method path handler filters w

/-- The method `Kernel.AddHandler` of `app.go`. -/
def Kernel.AddHandler (kernel : Kernel) (method path : String) (handler : Handler)
    (filters : List Handler) (w : World) : World :=
  kernel.AddHandlerName "" method path handler filters w

/-- Behaviour of a component's `Bootstrap(app *Kernel)` method, as the sequence of things
it does with the kernel it is handed. -/
inductive Boot where
  /-- Return from `Bootstrap`. -/
  | done : Boot
  /-- Assign `app.Prefix = p`. -/
  | setPrefix : String → Boot → Boot
  /-- Call `app.Registry.WithTypeAndValue(k, v)`. -/
  | bind : Key → Value → Boot → Boot
  /-- Call `app.AddMiddleware(hs...)`. -/
  | addMiddleware : List Handler → Boot → Boot
  /-- Call `app.AddHandler(method, path, h)`. -/
  | addHandler : String → String → Handler → Boot → Boot
  deriving DecidableEq, Repr

/-- Runs `Bootstrap` of a component on the kernel object `app`; returns the object as the
component leaves it. -/
def Boot.Bootstrap : Boot → Kernel → World → Kernel × World
  | Boot.done, app, w => (app, w)
  | Boot.setPrefix p k, app, w => k.Bootstrap { app with Prefix := p } w
  | Boot.bind key v k, app, w =>
      k.Bootstrap app { w with reg := w.reg.bind app.Registry key (Binding.value v) }
  | Boot.addMiddleware hs k, app, w =>
      k.Bootstrap { app with handlers := (app.toMiddlewareBundle.AddMiddleware hs).handlers } w
  | Boot.addHandler method path h k, app, w =>
      k.Bootstrap app (app.AddHandler method path h [] w)

/-- The loop of `Kernel.AddComponents`: each component is bootstrapped on `newApp`, whose
`Prefix` is then set back to `pfx`. The injection of registry values into the fields of a
component acts on the component only and is left out. -/
def bootstrapAll (pfx : String) : List Boot → Kernel → World → Kernel × World
  | [], newApp, w => (newApp, w)
  | b :: rest, newApp, w =>
      let r := b.Bootstrap newApp w
      bootstrapAll pfx rest { r.1 with Prefix := pfx } r.2

/-- The method `Kernel.AddComponents` of `app.go`; returns the copy `newApp` as the last
component leaves it, and the world. -/
def Kernel.AddComponents (kernel : Kernel) (b : List Boot) (w : World) : Kernel × World :=
  let newApp := kernel.Fork
  let pfx := newApp.Prefix
  bootstrapAll pfx b newApp w

/-- The kernel objects handed to `Bootstrap`, one per component, in the state in which
the loop of `Kernel.AddComponents` hands them over. -/
def bootstrapHanded (pfx : String) : List Boot → Kernel → World → List Kernel
  | [], _, _ => []
  | b :: rest, newApp, w =>
      newApp :: bootstrapHanded pfx rest { (b.Bootstrap newApp w).1 with Prefix := pfx }
        (b.Bootstrap newApp w).2

/-! ## Disposer bundles -/

/-- An argument of Go type `any` passed to `DisposerBundle`: the nil interface, a value
that implements `Disposer`, or a value that does not. The interface `Disposer` is not
declared in the sources at hand; implementing it means having a `Dispose()` method. -/
inductive AnyArg where
  | nil
  | disposer (id : Nat)
  | other (id : Nat)
  deriving DecidableEq, Repr

/-- The type assertion `ifa.(Disposer)`: it fails on the nil interface and on a value
without the method. -/
def AnyArg.asDisposer : AnyArg → Option Nat
  | AnyArg.nil => none
  | AnyArg.disposer id => some id
  | AnyArg.other _ => none

/-- The function `DisposerBundle` of `registry/disposer.go`; `log` records the `Dispose()`
calls made, in order. -/
def DisposerBundle (disposers : List AnyArg) (log : List Nat) : List Nat :=
  disposers.foldl
    (fun log ifa =>
      if ifa = AnyArg.nil then
        match ifa.asDisposer with
        | some disposer => log ++ [disposer]
        | none => log
      else log)
    log

/-- The function `CloserDisposerBundle` of `registry/disposer.go`; an argument is nil or a
closer, and `log` records the `Close()` calls made, in order. -/
def CloserDisposerBundle (closers : List (Option Nat)) (log : List Nat) : List Nat :=
  closers.foldl
    (fun log ifa =>
      match ifa with
      | some closer => log ++ [closer]
      | none => log)
    log

/-- The function `CancelDisposerBundle` of `registry/disposer.go`; an argument is nil or a
cancelable, and `log` records the `Cancel()` calls made, in order. -/
def CancelDisposerBundle (closers : List (Option Nat)) (log : List Nat) : List Nat :=
  closers.foldl
    (fun log ifa =>
      match ifa with
      | some c => log ++ [c]
      | none => log)
    log

/-! ## URL templates by segments -/

/-- Value stored under `k` in a Go map. -/
def mapGet (m : List (String × String)) (k : String) : Option String :=
  (m.find? (fun e => e.1 = k)).map (fun e => e.2)

/-- Pieces of a character sequence between occurrences of `/`: the text before the first
`/`, then one segment per `/`. -/
def splitSlash : List Char → List (List Char)
  | [] => [[]]
  | c :: rest =>
      if c = '/' then [] :: splitSlash rest
      else
        match splitSlash rest with
        | seg :: segs => (c :: seg) :: segs
        | [] => [[c]]

/-- The marker of a parameter segment: a segment `:name` or `*name` with a name of at
least one character. -/
def segMarker : List Char → Option Char
  | m :: _ :: _ => if m = ':' ∨ m = '*' then some m else none
  | _ => none

/-- What the claim puts in the template for one segment of the path: `/%v` for a named
parameter `/:name`, `%v` for a wildcard `/*name`, the segment with its `/` otherwise. -/
def segTemplate (s : List Char) : List Char :=
  match segMarker s with
  | some m => if m = '*' then ['%', 'v'] else ['/', '%', 'v']
  | none => '/' :: s

/-- Concatenation of the templates of a list of segments. -/
def segsTemplate : List (List Char) → List Char
  | [] => []
  | s :: rest => segTemplate s ++ segsTemplate rest

/-- The URL template in the words of the claim: the path with each parameter segment
replaced. -/
def templateBySegments (path : List Char) : List Char :=
  match splitSlash path with
  | [] => []
  | p0 :: segs => p0 ++ segsTemplate segs

/-- Number of parameter segments of a path. -/
def paramSegments (path : List Char) : Nat :=
  match splitSlash path with
  | [] => 0
  | _ :: segs => segs.countP (fun s => (segMarker s).isSome)

/-- Concatenation of the segments that are not parameter segments, each with its `/`. -/
def segsKept : List (List Char) → List Char
  | [] => []
  | s :: rest => (if (segMarker s).isSome then [] else '/' :: s) ++ segsKept rest

/-- The text of a path outside its parameter segments. -/
def keptText (path : List Char) : List Char :=
  match splitSlash path with
  | [] => []
  | p0 :: segs => p0 ++ segsKept segs

/-- Number of occurrences of `%v` in a character sequence. -/
def occPV : List Char → Nat
  | [] => 0
  | c :: rest => (if c = '%' ∧ rest.head? = some 'v' then 1 else 0) + occPV rest

/-- Whether the expression `/[:*][^/]+` matches somewhere in a character sequence. -/
def hasParam : List Char → Bool
  | [] => false
  | c :: rest => (decide (c = '/') && (paramMarker rest).isSome) || hasParam rest

/-- Whether a character sequence starts with a lone `:` or `*` segment directly followed
by a wildcard segment, as `:/*name` does. -/
def loneWildAt : List Char → Bool
  | m :: '/' :: rest3 => decide (m = ':' ∨ m = '*') && decide (paramMarker rest3 = some '*')
  | _ => false

/-- Whether a character sequence holds a segment that is a lone `:` or `*` directly
followed by a wildcard segment, as in `/:/*name`. -/
def loneThenWild : List Char → Bool
  | [] => false
  | c :: rest => (decide (c = '/') && loneWildAt rest) || loneThenWild rest

/-- A mapper for a controller `Users` with the actions `Show` and `List`, on a kernel
without prefix. -/
def usersMapper : Mapper :=
  { handlers := [], Prefix := "", Name := "Users",
    typ := { name := "Users",
             valueMethods := [⟨"Show", ⟨1, Prog.done⟩⟩],
             pointerMethods := [⟨"List", ⟨2, Prog.done⟩⟩] },
    app := { handlers := [], Registry := 0, Prefix := "" },
    Registry := some 0 }

/-! # Properties -/

/-! ## The dispatcher pops handlers in order -/

theorem invocationsOf_drop (l : List Handler) (m : Nat) :
    invocationsOf (l.drop m) = (invocationsOf l).drop m := by
  induction l generalizing m with
  | nil => simp [invocationsOf]
  | cons h t ih =>
      cases m with
      | zero => simp
      | succ m => simpa [invocationsOf] using ih m

theorem invocationsOf_length (l : List Handler) : (invocationsOf l).length = l.length := by
  induction l with
  | nil => rfl
  | cons h t ih => simp [invocationsOf, ih]

theorem Advances.refl {α : Type} (c : Context) (w w1 : World) (r : Res α)
    (hs : r.state = some (c, w1)) (hl : w1.invoked = w.invoked) : Advances c w r :=
  ⟨0, c, w1, hs, by simp, by simp [hl]⟩

theorem Advances.trans {α β : Type} {c c1 : Context} {w w1 : World} {r1 : Res α} {r2 : Res β}
    (h1 : Advances c w r1) (hs : r1.state = some (c1, w1)) (h2 : Advances c1 w1 r2) :
    Advances c w r2 := by
  obtain ⟨m1, c1', w1', hs1, hc1, hl1⟩ := h1
  obtain ⟨m2, c2, w2, hs2, hc2, hl2⟩ := h2
  rw [hs] at hs1
  cases hs1
  refine ⟨m1 + m2, c2, w2, hs2, ?_, ?_⟩
  · rw [hc2, hc1]
    simp [List.drop_drop, Nat.add_comm]
  · rw [hl2, hl1, hc1]
    simp [invocationsOf_drop, List.take_add, List.append_assoc]

theorem Advances.length_le {α : Type} {c c1 : Context} {w w1 : World} {r : Res α}
    (h : Advances c w r) (hs : r.state = some (c1, w1)) :
    c1.handlers.length ≤ c.handlers.length := by
  obtain ⟨m, c', w', hs', hc, _⟩ := h
  rw [hs] at hs'
  cases hs'
  simp [hc]

theorem execWith_advances (nxt : Context → World → Res (Option NextError)) (L : Nat)
    (hn : ∀ c w, c.handlers.length ≤ L → Advances c w (nxt c w)) :
    ∀ (p : Prog) (c : Context) (w w0 : World), c.handlers.length ≤ L →
      w.invoked = w0.invoked → Advances c w0 (execWith nxt p c w) := by
  intro p
  induction p with
  | done => intro c w w0 _ hl; exact Advances.refl c w0 w _ rfl hl
  | tick k ih => intro c w w0 hL hl; exact ih c _ w0 hL hl
  | next k1 k2 ih1 ih2 =>
      intro c w w0 hL hl
      have hadv := hn c w hL
      have hadv0 : Advances c w0 (nxt c w) := by
        obtain ⟨m, c', w', h1, h2, h3⟩ := hadv
        exact ⟨m, c', w', h1, h2, by rw [h3, hl]⟩
      unfold execWith
      cases hr : nxt c w with
      | ok e c' w' =>
          have hs : (nxt c w).state = some (c', w') := by rw [hr]; rfl
          have hlen := Advances.length_le hadv hs
          cases e with
          | none => exact Advances.trans hadv0 hs (ih1 c' w' w' (le_trans hlen hL) rfl)
          | some e => exact Advances.trans hadv0 hs (ih2 c' w' w' (le_trans hlen hL) rfl)
      | panic p c' w' =>
          rw [hr] at hadv0
          exact hadv0
      | stuck =>
          rw [hr] at hadv0
          exact hadv0
  | bind k v p ih =>
      intro c w w0 hL hl
      unfold execWith
      cases hreg : c.Registry with
      | none => exact Advances.refl c w0 w _ rfl hl
      | some s => exact ih c _ w0 hL hl
  | fork p ih =>
      intro c w w0 hL hl
      unfold execWith
      cases hreg : c.Registry with
      | none => exact Advances.refl c w0 w _ rfl hl
      | some s => exact ih c _ w0 hL hl
  | setRegistry r p ih =>
      intro c w w0 hL hl
      exact ih { c with Registry := r } w w0 hL hl
  | forkRegistry p ih =>
      intro c w w0 hL hl
      unfold execWith
      cases hreg : c.Registry with
      | none => exact Advances.refl c w0 w _ rfl hl
      | some s =>
          exact ih { c with Registry := some (w.reg.Fork s).1 }
            { w with reg := (w.reg.Fork s).2 } w0 hL hl
  | panic msg => intro c w w0 _ hl; exact Advances.refl c w0 w _ rfl hl

theorem NextAt_advances : ∀ (n : Nat) (c : Context) (w : World),
    c.handlers.length ≤ n → Advances c w (NextAt n c w) := by
  intro n
  induction n with
  | zero =>
      intro c w hL
      have : c.handlers = [] := List.eq_nil_of_length_eq_zero (Nat.le_zero.mp hL)
      unfold NextAt
      rw [this]
      exact Advances.refl c w w _ rfl rfl
  | succ n ih =>
      intro c w hL
      unfold NextAt
      cases hh : c.handlers with
      | nil => exact Advances.refl c w w _ rfl rfl
      | cons h rest =>
          have hlen : rest.length ≤ n := by
            rw [hh] at hL; simpa using hL
          have hex := execWith_advances (NextAt n) n ih h.body { c with handlers := rest }
            { w with invoked := w.invoked ++ [⟨h.id, rest.map (fun x => x.id)⟩] }
            { w with invoked := w.invoked ++ [⟨h.id, rest.map (fun x => x.id)⟩] } hlen rfl
          obtain ⟨m, c', w', h1, h2, h3⟩ := hex
          refine ⟨m + 1, c', w', ?_, ?_, ?_⟩
          · simp only [Handler.Handle]
            cases hr : execWith (NextAt n) h.body { c with handlers := rest }
              { w with invoked := w.invoked ++ [⟨h.id, rest.map (fun x => x.id)⟩] } with
            | ok a c2 w2 => rw [hr] at h1; exact h1
            | panic p c2 w2 => rw [hr] at h1; exact h1
            | stuck => rw [hr] at h1; cases h1
          · rw [h2]; simp [hh]
          · rw [h3]; simp [hh, invocationsOf]

/-! ## The bound on nested calls is never reached -/

theorem execWith_congr (nxt1 nxt2 : Context → World → Res (Option NextError)) (L : Nat)
    (heq : ∀ c w, c.handlers.length ≤ L → nxt1 c w = nxt2 c w)
    (hadv : ∀ c w, c.handlers.length ≤ L → Advances c w (nxt1 c w)) :
    ∀ (p : Prog) (c : Context) (w : World), c.handlers.length ≤ L →
      execWith nxt1 p c w = execWith nxt2 p c w := by
  intro p
  induction p with
  | done => intro c w _; rfl
  | tick k ih => intro c w hL; simp only [execWith]; exact ih c _ hL
  | next k1 k2 ih1 ih2 =>
      intro c w hL
      simp only [execWith]
      rw [← heq c w hL]
      cases hr : nxt1 c w with
      | ok e c' w' =>
          have hs : (nxt1 c w).state = some (c', w') := by rw [hr]; rfl
          have hlen := le_trans (Advances.length_le (hadv c w hL) hs) hL
          cases e with
          | none => exact ih1 c' w' hlen
          | some e => exact ih2 c' w' hlen
      | panic p c' w' => rfl
      | stuck => rfl
  | bind k v p ih =>
      intro c w hL
      simp only [execWith]
      cases c.Registry with
      | none => rfl
      | some s => exact ih c _ hL
  | fork p ih =>
      intro c w hL
      simp only [execWith]
      cases c.Registry with
      | none => rfl
      | some s => exact ih c _ hL
  | setRegistry r p ih =>
      intro c w hL
      simp only [execWith]
      exact ih { c with Registry := r } w hL
  | forkRegistry p ih =>
      intro c w hL
      simp only [execWith]
      cases c.Registry with
      | none => rfl
      | some s => exact ih { c with Registry := some (w.reg.Fork s).1 } _ hL
  | panic msg => intro c w _; rfl

theorem NextAt_fuel : ∀ (n m : Nat) (c : Context) (w : World),
    c.handlers.length ≤ n → c.handlers.length ≤ m → NextAt n c w = NextAt m c w := by
  intro n
  induction n with
  | zero =>
      intro m c w hn _
      have hnil : c.handlers = [] := List.eq_nil_of_length_eq_zero (Nat.le_zero.mp hn)
      cases m <;> simp [NextAt, hnil]
  | succ n ih =>
      intro m c w hn hm
      cases hh : c.handlers with
      | nil => cases m <;> simp [NextAt, hh]
      | cons h rest =>
          rw [hh] at hn hm
          cases m with
          | zero => simp at hm
          | succ m =>
              have hn' : rest.length ≤ n := by simpa using hn
              have hm' : rest.length ≤ m := by simpa using hm
              simp only [NextAt, hh, Handler.Handle]
              rw [execWith_congr (NextAt n) (NextAt m) rest.length
                (fun c w hL => ih m c w (le_trans hL hn') (le_trans hL hm'))
                (fun c w hL => NextAt_advances n c w (le_trans hL hn')) h.body _ _ (le_refl _)]

theorem NextAt_eq_Next (n : Nat) (c : Context) (w : World) (h : c.handlers.length ≤ n) :
    NextAt n c w = c.Next w :=
  NextAt_fuel n c.handlers.length c w h (le_refl _)

theorem Next_advances (c : Context) (w : World) : Advances c w (c.Next w) :=
  NextAt_advances c.handlers.length c w (le_refl _)

theorem Next_nil (c : Context) (w : World) (h : c.handlers = []) :
    c.Next w = Res.ok (some NextError.ExhaustedChain) c w := by
  simp [Context.Next, h, NextAt]

theorem Next_cons (c : Context) (w : World) (h : Handler) (rest : List Handler)
    (hh : c.handlers = h :: rest) :
    c.Next w =
      match h.Handle Context.Next { c with handlers := rest } w with
      | Res.ok _ c' w' => Res.ok none c' w'
      | Res.panic p c' w' => Res.panic p c' w'
      | Res.stuck => Res.stuck := by
  simp only [Context.Next, hh, List.length_cons, NextAt, Handler.Handle]
  rw [execWith_congr (NextAt rest.length) Context.Next rest.length
    (fun c w hL => NextAt_eq_Next rest.length c w hL)
    (fun c w hL => NextAt_advances rest.length c w hL) h.body _ _ (le_refl _)]

theorem Next_ne_stuck (c : Context) (w : World) : c.Next w ≠ Res.stuck := by
  obtain ⟨m, c', w', hs, _, _⟩ := Next_advances c w
  intro h
  rw [h] at hs
  cases hs

/-! ## Chains of well-behaved handlers -/

theorem execWith_noNext (nxt : Context → World → Res (Option NextError)) :
    ∀ (p : Prog) (c : Context) (w : World), p.noNext = true →
      ∃ c1 w1, (execWith nxt p c w).state = some (c1, w1) ∧ c1.handlers = c.handlers ∧
        w1.invoked = w.invoked := by
  intro p
  induction p with
  | done => intro c w _; exact ⟨c, w, rfl, rfl, rfl⟩
  | tick k ih =>
      intro c w h
      obtain ⟨c1, w1, h1, h2, h3⟩ := ih c { w with counter := w.counter + 1 } h
      exact ⟨c1, w1, h1, h2, h3⟩
  | next k1 k2 _ _ => intro c w h; simp [Prog.noNext] at h
  | bind k v p ih =>
      intro c w h
      simp only [execWith]
      cases hreg : c.Registry with
      | none => exact ⟨c, w, rfl, rfl, rfl⟩
      | some s =>
          obtain ⟨c1, w1, h1, h2, h3⟩ :=
            ih c { w with reg := w.reg.bind s k (Binding.value v) } h
          exact ⟨c1, w1, h1, h2, h3⟩
  | fork p ih =>
      intro c w h
      simp only [execWith]
      cases hreg : c.Registry with
      | none => exact ⟨c, w, rfl, rfl, rfl⟩
      | some s =>
          obtain ⟨c1, w1, h1, h2, h3⟩ := ih c { w with reg := (w.reg.Fork s).2 } h
          exact ⟨c1, w1, h1, h2, h3⟩
  | setRegistry r p ih =>
      intro c w h
      obtain ⟨c1, w1, h1, h2, h3⟩ := ih { c with Registry := r } w h
      exact ⟨c1, w1, h1, h2, h3⟩
  | forkRegistry p ih =>
      intro c w h
      simp only [execWith]
      cases hreg : c.Registry with
      | none => exact ⟨c, w, rfl, rfl, rfl⟩
      | some s =>
          obtain ⟨c1, w1, h1, h2, h3⟩ := ih { c with Registry := some (w.reg.Fork s).1 }
            { w with reg := (w.reg.Fork s).2 } h
          exact ⟨c1, w1, h1, h2, h3⟩
  | panic msg => intro c w _; exact ⟨c, w, rfl, rfl, rfl⟩

theorem execWith_nextOnce (nxt : Context → World → Res (Option NextError)) :
    ∀ (p : Prog) (c : Context) (w : World), p.nextOnce = true → c.Registry.isSome = true →
      ∃ c1 w1, c1.handlers = c.handlers ∧ c1.Registry.isSome = true ∧
        w1.invoked = w.invoked ∧ (execWith nxt p c w).progress = (nxt c1 w1).progress := by
  intro p
  induction p with
  | done => intro c w h; simp [Prog.nextOnce] at h
  | tick k ih =>
      intro c w h hreg
      obtain ⟨c1, w1, h1, h2, h3, h4⟩ := ih c { w with counter := w.counter + 1 } h hreg
      exact ⟨c1, w1, h1, h2, h3, h4⟩
  | next k1 k2 _ _ =>
      intro c w h hreg
      simp only [Prog.nextOnce, Bool.and_eq_true] at h
      refine ⟨c, w, rfl, hreg, rfl, ?_⟩
      simp only [execWith]
      cases hr : nxt c w with
      | ok e c' w' =>
          cases e with
          | none =>
              obtain ⟨c1, w1, h1, h2, h3⟩ := execWith_noNext nxt k1 c' w' h.1
              unfold Res.progress
              rw [h1]
              simp [Res.state, h2, h3]
          | some e =>
              obtain ⟨c1, w1, h1, h2, h3⟩ := execWith_noNext nxt k2 c' w' h.2
              unfold Res.progress
              rw [h1]
              simp [Res.state, h2, h3]
      | panic p c' w' => rfl
      | stuck => rfl
  | bind k v p ih =>
      intro c w h hreg
      obtain ⟨s, hs⟩ := Option.isSome_iff_exists.mp hreg
      simp only [execWith, hs]
      obtain ⟨c1, w1, h1, h2, h3, h4⟩ :=
        ih c { w with reg := w.reg.bind s k (Binding.value v) } h hreg
      exact ⟨c1, w1, h1, h2, h3, h4⟩
  | fork p ih =>
      intro c w h hreg
      obtain ⟨s, hs⟩ := Option.isSome_iff_exists.mp hreg
      simp only [execWith, hs]
      obtain ⟨c1, w1, h1, h2, h3, h4⟩ := ih c { w with reg := (w.reg.Fork s).2 } h hreg
      exact ⟨c1, w1, h1, h2, h3, h4⟩
  | setRegistry r p ih =>
      intro c w h _
      simp only [Prog.nextOnce, Bool.and_eq_true] at h
      obtain ⟨c1, w1, h1, h2, h3, h4⟩ := ih { c with Registry := r } w h.2 h.1
      exact ⟨c1, w1, h1, h2, h3, h4⟩
  | forkRegistry p ih =>
      intro c w h hreg
      obtain ⟨s, hs⟩ := Option.isSome_iff_exists.mp hreg
      simp only [execWith, hs]
      obtain ⟨c1, w1, h1, h2, h3, h4⟩ := ih { c with Registry := some (w.reg.Fork s).1 }
        { w with reg := (w.reg.Fork s).2 } h rfl
      exact ⟨c1, w1, h1, h2, h3, h4⟩
  | panic msg => intro c w h; simp [Prog.nextOnce] at h

theorem NextAt_cons_trace (n : Nat) (c : Context) (w : World) (h : Handler)
    (rest : List Handler) (hh : c.handlers = h :: rest) :
    (NextAt (n + 1) c w).trace =
      (execWith (NextAt n) h.body { c with handlers := rest }
        { w with invoked := w.invoked ++ [⟨h.id, rest.map (fun x => x.id)⟩] }).trace := by
  simp only [NextAt, hh, Handler.Handle]
  cases execWith (NextAt n) h.body { c with handlers := rest }
    { w with invoked := w.invoked ++ [⟨h.id, rest.map (fun x => x.id)⟩] } <;> rfl

theorem NextAt_cons_progress (n : Nat) (c : Context) (w : World) (h : Handler)
    (rest : List Handler) (hh : c.handlers = h :: rest) :
    (NextAt (n + 1) c w).progress =
      (execWith (NextAt n) h.body { c with handlers := rest }
        { w with invoked := w.invoked ++ [⟨h.id, rest.map (fun x => x.id)⟩] }).progress := by
  simp only [NextAt, hh, Handler.Handle]
  cases execWith (NextAt n) h.body { c with handlers := rest }
    { w with invoked := w.invoked ++ [⟨h.id, rest.map (fun x => x.id)⟩] } <;> rfl

/-- A chain whose handlers all call `Next` exactly once is walked to its end. -/
theorem NextAt_chain_all : ∀ (n : Nat) (c : Context) (w : World),
    c.handlers.length ≤ n → (∀ h ∈ c.handlers, h.body.nextOnce = true) →
    c.Registry.isSome = true →
    (NextAt n c w).progress = some ([], w.invoked ++ invocationsOf c.handlers) := by
  intro n
  induction n with
  | zero =>
      intro c w hL _ _
      have hnil : c.handlers = [] := List.eq_nil_of_length_eq_zero (Nat.le_zero.mp hL)
      simp [NextAt, hnil, Res.progress, Res.state, invocationsOf]
  | succ n ih =>
      intro c w hL hall hreg
      cases hh : c.handlers with
      | nil => simp [NextAt, hh, Res.progress, Res.state, invocationsOf]
      | cons h rest =>
          rw [NextAt_cons_progress n c w h rest hh]
          have hb : h.body.nextOnce = true := hall h (by simp [hh])
          obtain ⟨c1, w1, h1, h2, h3, h4⟩ := execWith_nextOnce (NextAt n) h.body
            { c with handlers := rest }
            { w with invoked := w.invoked ++ [⟨h.id, rest.map (fun x => x.id)⟩] } hb hreg
          simp only at h1 h3
          rw [h4, ih c1 w1 (by rw [h1]; rw [hh] at hL; simpa using hL)
            (fun x hx => hall x (by rw [h1] at hx; simp [hh, hx])) h2, h3, h1]
          simp [invocationsOf]

/-- A chain stops at the first handler that does not call `Next`, when every handler
before it calls `Next` exactly once. -/
theorem NextAt_chain_stop (stop : Handler) (post : List Handler)
    (hstop : stop.body.noNext = true) :
    ∀ (pre : List Handler) (n : Nat) (c : Context) (w : World),
    c.handlers = pre ++ stop :: post → c.handlers.length ≤ n →
    (∀ h ∈ pre, h.body.nextOnce = true) → c.Registry.isSome = true →
    (NextAt n c w).progress =
      some (post, w.invoked ++ (invocationsOf c.handlers).take (pre.length + 1)) := by
  intro pre
  induction pre with
  | nil =>
      intro n c w hh hL _ _
      cases n with
      | zero => rw [hh] at hL; simp at hL
      | succ n =>
          simp only [List.nil_append] at hh
          rw [NextAt_cons_progress n c w stop post hh]
          obtain ⟨c1, w1, h1, h2, h3⟩ := execWith_noNext (NextAt n) stop.body
            { c with handlers := post }
            { w with invoked := w.invoked ++ [⟨stop.id, post.map (fun x => x.id)⟩] } hstop
          simp only at h2 h3
          simp [Res.progress, h1, h2, h3, hh, invocationsOf]
  | cons h pre ih =>
      intro n c w hh hL hall hreg
      cases n with
      | zero => rw [hh] at hL; simp at hL
      | succ n =>
          simp only [List.cons_append] at hh
          rw [NextAt_cons_progress n c w h (pre ++ stop :: post) hh]
          obtain ⟨c1, w1, h1, h2, h3, h4⟩ := execWith_nextOnce (NextAt n) h.body
            { c with handlers := pre ++ stop :: post }
            { w with invoked := w.invoked ++
                [⟨h.id, (pre ++ stop :: post).map (fun x => x.id)⟩] }
            (hall h (by simp)) hreg
          simp only at h1 h3
          rw [h4, ih n c1 w1 h1 (by rw [h1]; rw [hh] at hL; simpa using hL)
            (fun x hx => hall x (by simp [hx])) h2, h3, h1]
          simp [invocationsOf, hh, List.take_succ_cons]

/-- A chain of counting handlers returns with the counter raised by its length. -/
theorem NextAt_chain_count : ∀ (n : Nat) (c : Context) (w : World),
    c.handlers.length ≤ n → (∀ h ∈ c.handlers, h.body = countAndAdvance) →
    NextAt n c w =
      Res.ok (if c.handlers = [] then some NextError.ExhaustedChain else none)
        { c with handlers := [] }
        { w with counter := w.counter + c.handlers.length,
                 invoked := w.invoked ++ invocationsOf c.handlers } := by
  intro n
  induction n with
  | zero =>
      intro c w hL _
      have hnil : c.handlers = [] := List.eq_nil_of_length_eq_zero (Nat.le_zero.mp hL)
      cases c
      simp only at hnil
      subst hnil
      simp [NextAt, invocationsOf]
  | succ n ih =>
      intro c w hL hall
      cases hh : c.handlers with
      | nil =>
          cases c
          simp only at hh
          subst hh
          simp [NextAt, invocationsOf]
      | cons h rest =>
          have hb : h.body = countAndAdvance := hall h (by simp [hh])
          have he := ih { c with handlers := rest }
            { w with counter := w.counter + 1,
                     invoked := w.invoked ++ [⟨h.id, rest.map (fun x => x.id)⟩] }
            (by rw [hh] at hL; simpa using hL) (fun x hx => hall x (by simp [hh, hx]))
          simp only [NextAt, hh, Handler.Handle, hb, countAndAdvance, execWith, he]
          by_cases hr : rest = [] <;>
            simp [hr, execWith, invocationsOf, Nat.add_assoc, Nat.add_comm 1]

theorem invocationsOf_handler (l : List Handler) :
    (invocationsOf l).map (fun e => e.handler) = l.map (fun h => h.id) := by
  induction l with
  | nil => rfl
  | cons h t ih => simp [invocationsOf, ih]

theorem invocationsOf_getElem? (l : List Handler) (j : Nat) :
    (invocationsOf l)[j]? =
      l[j]?.map (fun x => ⟨x.id, (l.drop (j + 1)).map (fun y => y.id)⟩) := by
  induction l generalizing j with
  | nil => simp [invocationsOf]
  | cons h t ih =>
      cases j with
      | zero => simp [invocationsOf]
      | succ j => simpa [invocationsOf] using ih j

/-! ## Dispatching a chain -/

theorem Advances.bounded {α : Type} {c : Context} {w : World} {r : Res α}
    (h : Advances c w r) :
    ∃ m c' w', m ≤ c.handlers.length ∧ r.state = some (c', w') ∧
      c'.handlers = c.handlers.drop m ∧
      w'.invoked = w.invoked ++ (invocationsOf c.handlers).take m := by
  obtain ⟨m, c', w', hs, hc, hl⟩ := h
  by_cases hm : m ≤ c.handlers.length
  · exact ⟨m, c', w', hm, hs, hc, hl⟩
  · have hlt : c.handlers.length ≤ m := by omega
    refine ⟨c.handlers.length, c', w', le_refl _, hs, ?_, ?_⟩
    · rw [hc, List.drop_eq_nil_of_le hlt, List.drop_eq_nil_of_le (le_refl _)]
    · rw [hl, List.take_of_length_le (by rw [invocationsOf_length]; exact hlt),
        List.take_of_length_le (by rw [invocationsOf_length])]

/-- C1: dispatching a chain of N >= 1 handlers that each call `Next` exactly once enters
all N handlers, each once, in registration order, and pops the whole chain; when every
handler is the counting handler of `TestContext_Advance` the dispatch returns normally
with the shared counter raised by N. -/
theorem dispatch_invokes_every_handler_once (hs : List Handler) (hN : 1 ≤ hs.length)
    (hall : ∀ h ∈ hs, h.body.nextOnce = true) (c : Context) (name : String)
    (rw r : Option Nat) (v : List (String × String)) (s : Nat) (w : World) :
    (∃ c' w', (DispatchNext c name rw r v s hs w).state = some (c', w') ∧
        w'.entered = w.entered ++ hs.map (fun h => h.id) ∧ c'.handlers = []) ∧
    ((∀ h ∈ hs, h.body = countAndAdvance) →
      ∃ c' w', DispatchNext c name rw r v s hs w = Res.ok none c' w' ∧
        w'.counter = w.counter + hs.length) := by
  constructor
  · have ht := NextAt_chain_all hs.length
      { c with Name := name, Response := rw, Request := r, Params := v,
               Registry := some s, handlers := hs } w (le_refl _) hall rfl
    simp only [DispatchNext, Context.Next]
    cases hr : NextAt hs.length
      { c with Name := name, Response := rw, Request := r, Params := v,
               Registry := some s, handlers := hs } w with
    | ok e c' w' =>
        rw [hr] at ht
        simp only [Res.progress, Res.state, Option.map_some', Option.some.injEq,
          Prod.mk.injEq] at ht
        refine ⟨c', w', rfl, ?_, ?_⟩
        · simp [World.entered, ht.2, invocationsOf_handler]
        · rw [ht.1]
    | panic p c' w' =>
        rw [hr] at ht
        simp only [Res.progress, Res.state, Option.map_some', Option.some.injEq,
          Prod.mk.injEq] at ht
        refine ⟨c', w', rfl, ?_, ?_⟩
        · simp [World.entered, ht.2, invocationsOf_handler]
        · rw [ht.1]
    | stuck => rw [hr] at ht; simp [Res.progress, Res.state] at ht
  · intro hcount
    have hne : hs ≠ [] := by
      intro h0; rw [h0] at hN; simp at hN
    have hc := NextAt_chain_count hs.length
      { c with Name := name, Response := rw, Request := r, Params := v,
               Registry := some s, handlers := hs } w (le_refl _) hcount
    simp only [hne, if_false] at hc
    exact ⟨_, _, hc, rfl⟩

/-- Concrete instance: the five counting handlers of `TestContext_Advance`. -/
theorem dispatch_invokes_every_handler_once_witness :
    (∃ c' w', (DispatchNext Context.zero "TestHandler" none none [] 0
          (List.replicate 5 ⟨0, countAndAdvance⟩) World.fresh).state = some (c', w') ∧
        w'.entered = World.fresh.entered ++
          (List.replicate 5 (⟨0, countAndAdvance⟩ : Handler)).map (fun h => h.id) ∧
        c'.handlers = []) ∧
    ((∀ h ∈ List.replicate 5 (⟨0, countAndAdvance⟩ : Handler), h.body = countAndAdvance) →
      ∃ c' w', DispatchNext Context.zero "TestHandler" none none [] 0
          (List.replicate 5 ⟨0, countAndAdvance⟩) World.fresh = Res.ok none c' w' ∧
        w'.counter = World.fresh.counter +
          (List.replicate 5 (⟨0, countAndAdvance⟩ : Handler)).length) :=
  dispatch_invokes_every_handler_once (List.replicate 5 ⟨0, countAndAdvance⟩) (by decide)
    (by decide) Context.zero "TestHandler" none none [] 0 World.fresh

/-- C2: when handlers 1..i-1 each call `Next` exactly once and handler i never calls
`Next`, dispatching enters exactly handlers 1..i, in order, once each; handlers i+1..N are
not entered and stay in the remaining sequence. -/
theorem dispatch_stops_at_handler_without_next (pre : List Handler) (stop : Handler)
    (post : List Handler) (hpre : ∀ h ∈ pre, h.body.nextOnce = true)
    (hstop : stop.body.noNext = true) (c : Context) (name : String)
    (rw r : Option Nat) (v : List (String × String)) (s : Nat) (w : World) :
    ∃ c' w', (DispatchNext c name rw r v s (pre ++ stop :: post) w).state = some (c', w') ∧
      w'.entered = w.entered ++ (pre ++ [stop]).map (fun h => h.id) ∧
      c'.handlers = post := by
  have ht := NextAt_chain_stop stop post hstop pre (pre ++ stop :: post).length
    { c with Name := name, Response := rw, Request := r, Params := v,
             Registry := some s, handlers := pre ++ stop :: post } w rfl (le_refl _) hpre rfl
  have hlog : ((invocationsOf (pre ++ stop :: post)).take (pre.length + 1)).map
      (fun e => e.handler) = (pre ++ [stop]).map (fun h => h.id) := by
    rw [List.map_take, invocationsOf_handler, ← List.map_take]
    simp [List.take_append_eq_append_take]
  simp only [DispatchNext, Context.Next]
  cases hr : NextAt (pre ++ stop :: post).length
    { c with Name := name, Response := rw, Request := r, Params := v,
             Registry := some s, handlers := pre ++ stop :: post } w with
  | ok e c' w' =>
      rw [hr] at ht
      simp only [Res.progress, Res.state, Option.map_some', Option.some.injEq,
        Prod.mk.injEq] at ht
      refine ⟨c', w', rfl, ?_, ?_⟩
      · simp only [World.entered, ht.2, List.map_append, hlog]
      · rw [ht.1]
  | panic p c' w' =>
      rw [hr] at ht
      simp only [Res.progress, Res.state, Option.map_some', Option.some.injEq,
        Prod.mk.injEq] at ht
      refine ⟨c', w', rfl, ?_, ?_⟩
      · simp only [World.entered, ht.2, List.map_append, hlog]
      · rw [ht.1]
  | stuck => rw [hr] at ht; simp [Res.progress, Res.state] at ht

/-- Concrete instance: five handlers, the third one returns without calling `Next`. -/
theorem dispatch_stops_at_handler_without_next_witness :
    ∃ c' w', (DispatchNext Context.zero "r" none none [] 0
        ([Handler.mk 1 countAndAdvance, Handler.mk 2 countAndAdvance] ++
          Handler.mk 3 (Prog.tick Prog.done) :: [Handler.mk 4 countAndAdvance, Handler.mk 5 countAndAdvance])
        World.fresh).state = some (c', w') ∧
      w'.entered = World.fresh.entered ++
        ([Handler.mk 1 countAndAdvance, Handler.mk 2 countAndAdvance] ++
          [Handler.mk 3 (Prog.tick Prog.done)]).map (fun h => h.id) ∧
      c'.handlers = [Handler.mk 4 countAndAdvance, Handler.mk 5 countAndAdvance] :=
  dispatch_stops_at_handler_without_next [Handler.mk 1 countAndAdvance, Handler.mk 2 countAndAdvance]
    (Handler.mk 3 (Prog.tick Prog.done)) [Handler.mk 4 countAndAdvance, Handler.mk 5 countAndAdvance] (by decide)
    (by decide) Context.zero "r" none none [] 0 World.fresh

/-- C3: `Next` returns the `ExhaustedChain` error exactly when no handler remains; in that
case the context and the world, invocation log included, are unchanged; with a handler
remaining it returns a nil error unless the handler panics, and never an error. -/
theorem next_exhausted_iff_no_handler (c : Context) (w : World) :
    ((∃ e c' w', c.Next w = Res.ok (some e) c' w') ↔ c.handlers = []) ∧
    (c.handlers = [] → c.Next w = Res.ok (some NextError.ExhaustedChain) c w) ∧
    (c.handlers ≠ [] →
      (∃ c' w', c.Next w = Res.ok none c' w') ∨ (∃ p c' w', c.Next w = Res.panic p c' w')) := by
  have hcons : c.handlers ≠ [] →
      (∃ c' w', c.Next w = Res.ok none c' w') ∨ (∃ p c' w', c.Next w = Res.panic p c' w') := by
    intro hne
    obtain ⟨h, rest, hh⟩ := List.exists_cons_of_ne_nil hne
    have hstuck := Next_ne_stuck c w
    rw [Next_cons c w h rest hh] at hstuck ⊢
    cases hr : h.Handle Context.Next { c with handlers := rest } w with
    | ok a c' w' => exact Or.inl ⟨c', w', rfl⟩
    | panic p c' w' => exact Or.inr ⟨p, c', w', rfl⟩
    | stuck => rw [hr] at hstuck; exact absurd rfl hstuck
  refine ⟨⟨?_, ?_⟩, Next_nil c w, hcons⟩
  · rintro ⟨e, c', w', he⟩
    by_contra hne
    rcases hcons hne with ⟨c2, w2, h2⟩ | ⟨p, c2, w2, h2⟩ <;> rw [h2] at he <;> cases he
  · intro hnil
    exact ⟨_, c, w, Next_nil c w hnil⟩

theorem not_mem_later_ids (l : List Handler) (hnd : (l.map (fun x => x.id)).Nodup)
    (i j : Nat) (hij : i ≤ j) (y : Handler) (hy : l[i]? = some y) :
    y.id ∉ (l.drop (j + 1)).map (fun x => x.id) := by
  intro hmem
  rw [List.map_drop, List.mem_iff_getElem?] at hmem
  obtain ⟨n, hn⟩ := hmem
  rw [List.getElem?_drop] at hn
  have hi : (l.map (fun x => x.id))[i]? = some y.id := by simp [hy]
  have hlt : j + 1 + n < (l.map (fun x => x.id)).length := by
    by_contra hge
    rw [List.getElem?_eq_none (by omega)] at hn
    cases hn
  have := (List.nodup_iff_getElem?_ne_getElem?.mp hnd) i (j + 1 + n) (by omega) hlt
  rw [hi, hn] at this
  exact this rfl

/-- C4: `Next` on a context whose remaining sequence is `h :: rest` runs `h` on the
context with `rest` as its remaining sequence, nested `Next` calls included; the j-th
handler entered during the call is the j-th of `h :: rest` and finds exactly the handlers
registered after it as remaining, so, the registered handlers being distinct, neither
itself nor a handler registered before it. -/
theorem next_pops_head_before_invoking (c : Context) (w : World) (h : Handler)
    (rest : List Handler) (hh : c.handlers = h :: rest) :
    (c.Next w =
      match h.Handle Context.Next { c with handlers := rest } w with
      | Res.ok _ c' w' => Res.ok none c' w'
      | Res.panic p c' w' => Res.panic p c' w'
      | Res.stuck => Res.stuck) ∧
    ∃ m c' w', (c.Next w).state = some (c', w') ∧ c'.handlers = rest.drop m ∧
      w'.invoked.length = w.invoked.length + (m + 1) ∧
      ∀ j, j < m + 1 →
        ∃ x e, (h :: rest)[j]? = some x ∧ w'.invoked[w.invoked.length + j]? = some e ∧
          e.handler = x.id ∧
          e.remaining = ((h :: rest).drop (j + 1)).map (fun y => y.id) ∧
          (((h :: rest).map (fun y => y.id)).Nodup →
            ∀ i y, i ≤ j → (h :: rest)[i]? = some y → y.id ∉ e.remaining) := by
  refine ⟨Next_cons c w h rest hh, ?_⟩
  obtain ⟨m, c', w', hm, hs, hc, hl⟩ := Advances.bounded (Next_advances c w)
  rw [hh] at hm hc hl
  cases m with
  | zero =>
      exfalso
      have h1 : (c.Next w).progress = some (c'.handlers, w.invoked) := by
        simp [Res.progress, hs, hl]
      have h2 := NextAt_cons_progress rest.length c w h rest hh
      have h3 : c.Next w = NextAt (rest.length + 1) c w := by
        simp [Context.Next, hh]
      rw [← h3, h1] at h2
      have hadv := execWith_advances (NextAt rest.length) rest.length
        (fun c w hL => NextAt_advances rest.length c w hL) h.body
        { c with handlers := rest }
        { w with invoked := w.invoked ++ [⟨h.id, rest.map (fun x => x.id)⟩] }
        { w with invoked := w.invoked ++ [⟨h.id, rest.map (fun x => x.id)⟩] } (le_refl _) rfl
      obtain ⟨m2, c2, w2, hs2, _, hl2⟩ := hadv
      simp only [Res.progress, hs2, Option.map_some', Option.some.injEq, Prod.mk.injEq] at h2
      have := congrArg List.length h2.2
      rw [hl2] at this
      simp at this
  | succ m =>
      have hm' : m ≤ rest.length := by simpa using hm
      refine ⟨m, c', w', hs, by simp [hc], ?_, ?_⟩
      · rw [hl]
        simp only [List.length_append, List.length_take, invocationsOf_length,
          List.length_cons]
        omega
      · intro j hj
        have hjl : j < (h :: rest).length := by simp; omega
        refine ⟨(h :: rest)[j], ⟨(h :: rest)[j].id,
          ((h :: rest).drop (j + 1)).map (fun y => y.id)⟩,
          List.getElem?_eq_getElem hjl, ?_, rfl, rfl, ?_⟩
        · rw [hl, List.getElem?_append_right (by omega)]
          simp only [Nat.add_sub_cancel_left]
          rw [List.getElem?_take_of_lt hj, invocationsOf_getElem?,
            List.getElem?_eq_getElem hjl]
          rfl
        · intro hnd i y hij hy
          exact not_mem_later_ids (h :: rest) hnd i j hij y hy

/-- Concrete instance: the first of two counting handlers. -/
theorem next_pops_head_before_invoking_witness :
    ((({ Context.zero with
          handlers := [Handler.mk 1 countAndAdvance, Handler.mk 2 countAndAdvance] } :
        Context).Next World.fresh) =
      match (Handler.mk 1 countAndAdvance).Handle Context.Next
        { ({ Context.zero with
              handlers := [Handler.mk 1 countAndAdvance, Handler.mk 2 countAndAdvance] } :
            Context) with handlers := [Handler.mk 2 countAndAdvance] } World.fresh with
      | Res.ok _ c' w' => Res.ok none c' w'
      | Res.panic p c' w' => Res.panic p c' w'
      | Res.stuck => Res.stuck) ∧
    ∃ m c' w', (({ Context.zero with
          handlers := [Handler.mk 1 countAndAdvance, Handler.mk 2 countAndAdvance] } :
        Context).Next World.fresh).state = some (c', w') ∧
      c'.handlers = [Handler.mk 2 countAndAdvance].drop m ∧
      w'.invoked.length = World.fresh.invoked.length + (m + 1) ∧
      ∀ j, j < m + 1 →
        ∃ x e, (Handler.mk 1 countAndAdvance :: [Handler.mk 2 countAndAdvance])[j]? = some x ∧
          w'.invoked[World.fresh.invoked.length + j]? = some e ∧
          e.handler = x.id ∧
          e.remaining = ((Handler.mk 1 countAndAdvance ::
            [Handler.mk 2 countAndAdvance]).drop (j + 1)).map (fun y => y.id) ∧
          (((Handler.mk 1 countAndAdvance :: [Handler.mk 2 countAndAdvance]).map
              (fun y => y.id)).Nodup →
            ∀ i y, i ≤ j →
              (Handler.mk 1 countAndAdvance :: [Handler.mk 2 countAndAdvance])[i]? = some y →
              y.id ∉ e.remaining) :=
  next_pops_head_before_invoking
    { Context.zero with
        handlers := [Handler.mk 1 countAndAdvance, Handler.mk 2 countAndAdvance] }
    World.fresh (Handler.mk 1 countAndAdvance) [Handler.mk 2 countAndAdvance] rfl
/-! ## Release of the request context -/

theorem execWith_framed (nxt : Context → World → Res (Option NextError))
    (hn : ∀ c w, Framed w (nxt c w)) :
    ∀ (p : Prog) (c : Context) (w : World), Framed w (execWith nxt p c w) := by
  intro p
  induction p with
  | done => intro c w c' w' h; cases h; exact ⟨rfl, rfl, rfl, rfl⟩
  | tick k ih => intro c w c' w' h; exact ih c { w with counter := w.counter + 1 } c' w' h
  | next k1 k2 ih1 ih2 =>
      intro c w c' w' h
      simp only [execWith] at h
      cases hr : nxt c w with
      | ok e c1 w1 =>
          have h1 := hn c w c1 w1 (by rw [hr]; rfl)
          rw [hr] at h
          cases e with
          | none =>
              have h2 := ih1 c1 w1 c' w' h
              exact ⟨h2.1.trans h1.1, h2.2.1.trans h1.2.1, h2.2.2.1.trans h1.2.2.1,
                h2.2.2.2.trans h1.2.2.2⟩
          | some e =>
              have h2 := ih2 c1 w1 c' w' h
              exact ⟨h2.1.trans h1.1, h2.2.1.trans h1.2.1, h2.2.2.1.trans h1.2.2.1,
                h2.2.2.2.trans h1.2.2.2⟩
      | panic p c1 w1 =>
          rw [hr] at h
          exact hn c w c' w' (by rw [hr]; exact h)
      | stuck => rw [hr] at h; cases h
  | bind k v p ih =>
      intro c w c' w' h
      simp only [execWith] at h
      cases hreg : c.Registry with
      | none => rw [hreg] at h; cases h; exact ⟨rfl, rfl, rfl, rfl⟩
      | some s =>
          rw [hreg] at h
          exact ih c { w with reg := w.reg.bind s k (Binding.value v) } c' w' h
  | fork p ih =>
      intro c w c' w' h
      simp only [execWith] at h
      cases hreg : c.Registry with
      | none => rw [hreg] at h; cases h; exact ⟨rfl, rfl, rfl, rfl⟩
      | some s =>
          rw [hreg] at h
          exact ih c { w with reg := (w.reg.Fork s).2 } c' w' h
  | setRegistry r p ih =>
      intro c w c' w' h
      exact ih { c with Registry := r } w c' w' h
  | forkRegistry p ih =>
      intro c w c' w' h
      simp only [execWith] at h
      cases hreg : c.Registry with
      | none => rw [hreg] at h; cases h; exact ⟨rfl, rfl, rfl, rfl⟩
      | some s =>
          rw [hreg] at h
          exact ih { c with Registry := some (w.reg.Fork s).1 }
            { w with reg := (w.reg.Fork s).2 } c' w' h
  | panic msg => intro c w c' w' h; cases h; exact ⟨rfl, rfl, rfl, rfl⟩

theorem NextAt_framed : ∀ (n : Nat) (c : Context) (w : World), Framed w (NextAt n c w) := by
  intro n
  induction n with
  | zero =>
      intro c w c' w' h
      unfold NextAt at h
      cases hh : c.handlers with
      | nil => rw [hh] at h; cases h; exact ⟨rfl, rfl, rfl, rfl⟩
      | cons x rest => rw [hh] at h; cases h
  | succ n ih =>
      intro c w c' w' h
      unfold NextAt at h
      cases hh : c.handlers with
      | nil => rw [hh] at h; cases h; exact ⟨rfl, rfl, rfl, rfl⟩
      | cons x rest =>
          rw [hh] at h
          simp only [Handler.Handle] at h
          have hf := execWith_framed (NextAt n) ih x.body { c with handlers := rest }
            { w with invoked := w.invoked ++ [⟨x.id, rest.map (fun y => y.id)⟩] } c' w'
          apply hf
          cases hr : execWith (NextAt n) x.body { c with handlers := rest }
            { w with invoked := w.invoked ++ [⟨x.id, rest.map (fun y => y.id)⟩] } with
          | ok a c2 w2 => rw [hr] at h; exact h
          | panic p c2 w2 => rw [hr] at h; exact h
          | stuck => rw [hr] at h; cases h

/-- Handlers that never assign `c.Registry` leave the field as they found it, provided
the nested `Next` does. -/
theorem execWith_keepsRegistry (nxt : Context → World → Res (Option NextError))
    (hn : ∀ c w, (∀ h ∈ c.handlers, h.body.keepsRegistry = true) →
      ∀ c' w', (nxt c w).state = some (c', w') →
        c'.Registry = c.Registry ∧ ∀ h ∈ c'.handlers, h.body.keepsRegistry = true) :
    ∀ (p : Prog) (c : Context) (w : World), p.keepsRegistry = true →
      (∀ h ∈ c.handlers, h.body.keepsRegistry = true) →
      ∀ c' w', (execWith nxt p c w).state = some (c', w') →
        c'.Registry = c.Registry ∧ ∀ h ∈ c'.handlers, h.body.keepsRegistry = true := by
  intro p
  induction p with
  | done => intro c w _ hP c' w' h; cases h; exact ⟨rfl, hP⟩
  | tick k ih => intro c w hk hP c' w' h; exact ih c { w with counter := w.counter + 1 } hk hP c' w' h
  | next k1 k2 ih1 ih2 =>
      intro c w hk hP c' w' h
      simp only [Prog.keepsRegistry, Bool.and_eq_true] at hk
      simp only [execWith] at h
      cases hr : nxt c w with
      | ok e c1 w1 =>
          have h1 := hn c w hP c1 w1 (by rw [hr]; rfl)
          rw [hr] at h
          cases e with
          | none =>
              have h2 := ih1 c1 w1 hk.1 h1.2 c' w' h
              exact ⟨h2.1.trans h1.1, h2.2⟩
          | some e =>
              have h2 := ih2 c1 w1 hk.2 h1.2 c' w' h
              exact ⟨h2.1.trans h1.1, h2.2⟩
      | panic p c1 w1 =>
          rw [hr] at h
          exact hn c w hP c' w' (by rw [hr]; exact h)
      | stuck => rw [hr] at h; cases h
  | bind k v p ih =>
      intro c w hk hP c' w' h
      simp only [execWith] at h
      cases hreg : c.Registry with
      | none => rw [hreg] at h; cases h; exact ⟨hreg.symm ▸ hreg, hP⟩
      | some s =>
          rw [hreg] at h
          have := ih c { w with reg := w.reg.bind s k (Binding.value v) } hk hP c' w' h
          exact ⟨this.1.trans hreg, this.2⟩
  | fork p ih =>
      intro c w hk hP c' w' h
      simp only [execWith] at h
      cases hreg : c.Registry with
      | none => rw [hreg] at h; cases h; exact ⟨hreg.symm ▸ hreg, hP⟩
      | some s =>
          rw [hreg] at h
          have := ih c { w with reg := (w.reg.Fork s).2 } hk hP c' w' h
          exact ⟨this.1.trans hreg, this.2⟩
  | setRegistry r p _ => intro c w hk; simp [Prog.keepsRegistry] at hk
  | forkRegistry p _ => intro c w hk; simp [Prog.keepsRegistry] at hk
  | panic msg => intro c w _ hP c' w' h; cases h; exact ⟨rfl, hP⟩

theorem NextAt_keepsRegistry : ∀ (n : Nat) (c : Context) (w : World),
    (∀ h ∈ c.handlers, h.body.keepsRegistry = true) →
    ∀ c' w', (NextAt n c w).state = some (c', w') →
      c'.Registry = c.Registry ∧ ∀ h ∈ c'.handlers, h.body.keepsRegistry = true := by
  intro n
  induction n with
  | zero =>
      intro c w hP c' w' h
      unfold NextAt at h
      cases hh : c.handlers with
      | nil => rw [hh] at h; cases h; exact ⟨rfl, hP⟩
      | cons x rest => rw [hh] at h; cases h
  | succ n ih =>
      intro c w hP c' w' h
      unfold NextAt at h
      cases hh : c.handlers with
      | nil => rw [hh] at h; cases h; exact ⟨rfl, hP⟩
      | cons x rest =>
          rw [hh] at h
          simp only [Handler.Handle] at h
          have hf := execWith_keepsRegistry (NextAt n) ih x.body { c with handlers := rest }
            { w with invoked := w.invoked ++ [⟨x.id, rest.map (fun y => y.id)⟩] }
            (hP x (by simp [hh])) (fun y hy => hP y (by simp [hh, hy])) c' w'
          apply hf
          cases hr : execWith (NextAt n) x.body { c with handlers := rest }
            { w with invoked := w.invoked ++ [⟨x.id, rest.map (fun y => y.id)⟩] } with
          | ok a c2 w2 => rw [hr] at h; exact h
          | panic p c2 w2 => rw [hr] at h; exact h
          | stuck => rw [hr] at h; cases h

/-- A dispatch ends, normally or in a panic, in a world whose pool and `MustDispose` log
are as before; when no handler assigns `c.Registry` its context still carries the request
scope. -/
theorem DispatchNext_state (c : Context) (name : String) (rw r : Option Nat)
    (v : List (String × String)) (s : Nat) (hs : List Handler) (w : World) :
    ∃ c1 w1, (DispatchNext c name rw r v s hs w).state = some (c1, w1) ∧
      w1.contextPool = w.contextPool ∧ w1.mustDisposed = w.mustDisposed ∧
      ((∀ h ∈ hs, h.body.keepsRegistry = true) → c1.Registry = some s) := by
  obtain ⟨m, c1, w1, h1, _, _⟩ := Next_advances
    { c with Name := name, Response := rw, Request := r, Params := v,
             Registry := some s, handlers := hs } w
  have hf := NextAt_framed hs.length
    { c with Name := name, Response := rw, Request := r, Params := v,
             Registry := some s, handlers := hs } w c1 w1 h1
  refine ⟨c1, w1, h1, hf.1, hf.2.1, ?_⟩
  intro hk
  exact (NextAt_keepsRegistry hs.length
    { c with Name := name, Response := rw, Request := r, Params := v,
             Registry := some s, handlers := hs } w hk c1 w1 h1).1

theorem requestRecover_state (c : Context) (s : Nat) (w : World) (hreg : c.Registry = some s) :
    ∃ w', (requestRecover c w).state = some (Context.zero, w') ∧
      w'.contextPool = Context.zero :: w.contextPool ∧
      w'.mustDisposed = w.mustDisposed ++ [s] ∧
      w'.reg = (w.reg.MustDispose s).2 ∧
      (∀ e, (w.reg.MustDispose s).1 = Except.error e →
        requestRecover c w = Res.panic (Panic.registry e) Context.zero w') ∧
      ((w.reg.MustDispose s).1 = Except.ok () → requestRecover c w = Res.ok () Context.zero w') := by
  simp only [requestRecover, hreg]
  rcases hm : w.reg.MustDispose s with ⟨res, st⟩
  cases res with
  | error e =>
      refine ⟨_, rfl, rfl, rfl, rfl, ?_, ?_⟩
      · intro e' he; cases he; rfl
      · intro he; cases he
  | ok u =>
      refine ⟨_, rfl, rfl, rfl, rfl, ?_, ?_⟩
      · intro e' he; cases he
      · intro _; rfl

/-- C5: `requestRecover` on a context owned by scope `s` ends, whether `MustDispose`
returns or panics, with every field of the context zero, the zeroed context on top of the
pool, and exactly one `MustDispose` call logged, on the captured scope `s`; the registry is
the one `MustDispose s` leaves, and the call panics exactly when `MustDispose s` fails. -/
theorem requestRecover_resets_pools_then_disposes (c : Context) (s : Nat) (w : World) :
    ∃ c' w', (requestRecover { c with Registry := some s } w).state = some (c', w') ∧
      (c'.Name = "" ∧ c'.Registry = none ∧ c'.Request = none ∧ c'.Gen = none ∧
        c'.handlers = [] ∧ c'.Response = none ∧ c'.Params = [] ∧ c'.body = none ∧
        c'.bodyBytes = [] ∧ c'.bodyReady = false) ∧
      w'.contextPool = c' :: w.contextPool ∧
      w'.mustDisposed = w.mustDisposed ++ [s] ∧
      w'.reg = (w.reg.MustDispose s).2 ∧
      ((∃ p, requestRecover { c with Registry := some s } w = Res.panic p c' w') ↔
        ∃ e, (w.reg.MustDispose s).1 = Except.error e) := by
  obtain ⟨w', h1, h2, h3, h4, h5, h6⟩ :=
    requestRecover_state { c with Registry := some s } s w rfl
  refine ⟨Context.zero, w', h1, by simp [Context.zero], h2, h3, h4, ?_⟩
  constructor
  · rintro ⟨p, hp⟩
    cases hm : (w.reg.MustDispose s).1 with
    | error e => exact ⟨e, rfl⟩
    | ok u => rw [h6 hm] at hp; cases hp
  · rintro ⟨e, he⟩
    exact ⟨_, h5 e he⟩

theorem newRequestContext_world (w : World) :
    (newRequestContext w).2.contextPool = w.contextPool.tail ∧
      (newRequestContext w).2.mustDisposed = w.mustDisposed ∧
      (newRequestContext w).2.reg = w.reg := by
  unfold newRequestContext
  split <;> simp_all

/-- The dispatch of a route callback ends with the pool short of the context taken and
the `MustDispose` log as it was; when no handler assigns `c.Registry` its context carries
the scope forked for the request. -/
theorem Route.dispatch_state (rt : Route) (rw r : Option Nat) (v : List (String × String))
    (w : World) :
    ∃ c1 w1, (rt.dispatch rw r v w).state = some (c1, w1) ∧
      w1.contextPool = w.contextPool.tail ∧ w1.mustDisposed = w.mustDisposed ∧
      ((∀ h ∈ rt.filters, h.body.keepsRegistry = true) →
        c1.Registry = some (w.reg.Fork rt.registry).1) := by
  obtain ⟨c1, w1, hd, hp, hm, hreg⟩ := DispatchNext_state (newRequestContext w).1 rt.name
    rw r v ((newRequestContext w).2.reg.Fork rt.registry).1 rt.filters
    { (newRequestContext w).2 with reg := ((newRequestContext w).2.reg.Fork rt.registry).2 }
  have hw := newRequestContext_world w
  refine ⟨c1, w1, hd, ?_, ?_, ?_⟩
  · rw [hp]; exact hw.1
  · rw [hm]; exact hw.2.1
  · intro hk; rw [hreg hk, hw.2.2]

theorem MustDispose_live_children (st : Store) (s : Nat) (h : 1 ≤ st.liveChildren s) :
    st.MustDispose s = (Except.error RegError.DisposeWithLiveChildren, st) := by
  unfold Store.liveChildren at h
  unfold Store.MustDispose Store.Dispose
  cases hs : st.scope? s with
  | none => rw [hs] at h; simp at h
  | some sc => rw [hs] at h; simp [h]

/-- C7: when the dispatch of a route callback ends with the context carrying a scope
that has a live child, the request scope forked by the callback unless a handler assigned
the field, so that `MustDispose` fails during release, the callback itself panics with
that failure, whether the chain returned or panicked, and the zeroed context is on top of
the pool. -/
theorem serve_propagates_dispose_failure (rt : Route) (rw r : Option Nat)
    (v : List (String × String)) (w : World)
    (hlive : ∃ c1 w1 s, (rt.dispatch rw r v w).state = some (c1, w1) ∧
      c1.Registry = some s ∧ 1 ≤ w1.reg.liveChildren s) :
    ∃ w', rt.serve rw r v w =
        Res.panic (Panic.registry RegError.DisposeWithLiveChildren) Context.zero w' ∧
      w'.contextPool = Context.zero :: w.contextPool.tail := by
  obtain ⟨c1, w1, s, hd, hreg, hl⟩ := hlive
  obtain ⟨c2, w2, hd2, hp, _, _⟩ := rt.dispatch_state rw r v w
  rw [hd] at hd2
  cases hd2
  obtain ⟨w', _, h2, _, _, h5, _⟩ := requestRecover_state c1 s w1 hreg
  have hrec := h5 RegError.DisposeWithLiveChildren (by rw [MustDispose_live_children _ _ hl])
  refine ⟨w', ?_, by rw [h2, hp]⟩
  simp only [Route.serve]
  cases hr : rt.dispatch rw r v w with
  | ok a c3 w3 => rw [hr] at hd; cases hd; exact hrec
  | panic p c3 w3 => rw [hr] at hd; cases hd; simp only [deferRequestRecover, hrec]
  | stuck => rw [hr] at hd; cases hd

/-- Concrete instance: a handler forks the request scope and never disposes the child. -/
theorem serve_propagates_dispose_failure_witness :
    ∃ w', (Route.mk "GET" "/leak" 0 "leak" [Handler.mk 1 (Prog.fork Prog.done)]).serve
          none none [] World.fresh =
        Res.panic (Panic.registry RegError.DisposeWithLiveChildren) Context.zero w' ∧
      w'.contextPool = Context.zero :: World.fresh.contextPool.tail :=
  serve_propagates_dispose_failure
    (Route.mk "GET" "/leak" 0 "leak" [Handler.mk 1 (Prog.fork Prog.done)]) none none []
    World.fresh ⟨_, _, (World.fresh.reg.Fork 0).1, rfl, rfl, by decide⟩

/-! ## Scopes: lookup through the parent -/

theorem Store.scope?_modify_ne (st : Store) (i j : Nat) (f : Scope → Scope) (h : i ≠ j) :
    (st.modify i f).scope? j = st.scope? j := by
  simp [Store.scope?, Store.modify, List.getElem?_modify, h]

theorem Store.scope?_modify_eq (st : Store) (i : Nat) (f : Scope → Scope) :
    (st.modify i f).scope? i = (st.scope? i).map f := by
  simp [Store.scope?, Store.modify, List.getElem?_modify]

theorem Store.Fork_scopes (st : Store) (p : Nat) :
    (st.Fork p).1 = st.scopes.length ∧
    (st.Fork p).2.scopes.length = st.scopes.length + 1 ∧
    (st.Fork p).2.scope? (st.Fork p).1 =
      some { bindings := [], parent := some p, liveChildren := 0, disposed := false } := by
  simp [Store.Fork, Store.scope?, Store.modify]

theorem Store.Fork_scope?_lt (st : Store) (p j : Nat) (hj : j < st.scopes.length) :
    (st.Fork p).2.scope? j =
      (st.modify p (fun sc => { sc with liveChildren := sc.liveChildren + 1 })).scope? j := by
  simp only [Store.Fork, Store.scope?]
  rw [List.getElem?_append_left]
  simpa [Store.modify] using hj

theorem findBinding_bind (sc : Scope) (k : Key) (b : Binding) :
    findBinding k (sc.bind k b).bindings = some b := by
  simp [Scope.bind, findBinding]

theorem Store.bind_scope? (st : Store) (i j : Nat) (k : Key) (b : Binding) :
    (st.bind i k b).scope? j = (st.modify i (fun sc => sc.bind k b)).scope? j := rfl

/-- The binding a scope resolves a key with, once the scope binds the key itself. -/
theorem Store.binding?_bind (st : Store) (c : Nat) (sc : Scope) (k : Key) (b : Binding)
    (hsc : st.scope? c = some sc) : (st.bind c k b).binding? c k = some b := by
  have h : (st.bind c k b).scope? c = some (sc.bind k b) := by
    rw [Store.bind_scope?, Store.scope?_modify_eq, hsc]; rfl
  simp only [Store.binding?, resolveAux, h, findBinding_bind]

theorem Store.resolve_bound_value (st : Store) (c : Nat) (sc : Scope) (k : Key) (v : Value)
    (hsc : st.scope? c = some sc) :
    ((st.bind c k (Binding.value v)).resolve c k).1 = Except.ok v := by
  simp only [Store.resolve, Store.binding?_bind st c sc k _ hsc]

theorem Store.liveChildren_of_scope (st : Store) (i : Nat) (sc : Scope)
    (h : st.scope? i = some sc) : st.liveChildren i = sc.liveChildren := by
  simp [Store.liveChildren, h]

theorem splitBar_ne_nil : ∀ l : List Char, splitBar l ≠ [] := by
  intro l
  induction l with
  | nil => simp [splitBar]
  | cons c rest ih =>
      unfold splitBar
      split
      · simp
      · split <;> simp

theorem splitMethods_length_pos (method : String) : 0 < (splitMethods method).length := by
  unfold splitMethods
  rw [List.length_map]
  exact List.length_pos.mpr (splitBar_ne_nil _)

theorem foldl_AddRoute (g : String → Route) :
    ∀ (ms : List String) (w : World),
      ms.foldl (fun w m => w.AddRoute (g m)) w =
        { w with routes := w.routes ++ ms.map g } := by
  intro ms
  induction ms with
  | nil => intro w; simp
  | cons m t ih =>
      intro w
      rw [List.foldl_cons, ih]
      simp [World.AddRoute]

/-- Routes registered by `AddHandlerContextName`: one per method, each carrying the chain
kernel middleware, filters, handler; nothing else in the world changes. -/
theorem Kernel.AddHandlerContextName_eq (kernel : Kernel) (registry : Option Nat)
    (name method path : String) (handler : Handler) (filters : List Handler) (w : World) :
    kernel.AddHandlerContextName registry name method path handler filters w =
      { w with routes := w.routes ++ (splitMethods method).map (fun m =>
          { method := m, path := kernel.Prefix ++ path,
            registry := registry.getD kernel.Registry, name := name,
            filters := kernel.handlers ++ filters ++ [handler] }) } := by
  unfold Kernel.AddHandlerContextName
  rw [foldl_AddRoute]
  cases registry <;> simp [MiddlewareBundle.reSlice]

theorem MethodByName_eq_none (methods : List Method) (action : String) :
    MethodByName methods action = none ↔ ∀ m ∈ methods, m.name ≠ action := by
  simp [MethodByName, List.find?_eq_none]

theorem MethodByName_elem_none (t : ControllerType) (action : String)
    (h : MethodByName t.ptrMethods action = none) :
    MethodByName t.elemMethods action = none := by
  rw [MethodByName_eq_none] at h ⊢
  intro m hm
  exact h m (by simp [ControllerType.ptrMethods, ControllerType.elemMethods] at hm ⊢; exact Or.inl hm)

/-- C10: `BindAction` panics exactly when the action names no method of the controller
type, and then with the invalid-action panic in an unchanged world, so with no route
added and no URL entry written; when the action is a method it returns, having written
the URL template under `Name.action` and added at least one route. -/
theorem BindAction_panics_iff_action_missing (mx : Mapper) (method path action : String)
    (filters : List Handler) (w : World) :
    ((∃ p w', mx.BindAction method path action filters w = Setup.panic p w') ↔
      ∀ m ∈ mx.typ.ptrMethods, m.name ≠ action) ∧
    ((∀ m ∈ mx.typ.ptrMethods, m.name ≠ action) →
      mx.BindAction method path action filters w =
        Setup.panic (InvalidAction action mx.typ) w) ∧
    ((∃ m ∈ mx.typ.ptrMethods, m.name = action) →
      ∃ w', mx.BindAction method path action filters w = Setup.ok w' ∧
        w.routes.length < w'.routes.length ∧
        (mx.Name ++ "." ++ action, urlTemplate (mx.app.Prefix ++ mx.Prefix ++ path)) ∈
          w'.URLGen) := by
  have hfail : (∀ m ∈ mx.typ.ptrMethods, m.name ≠ action) →
      mx.BindAction method path action filters w =
        Setup.panic (InvalidAction action mx.typ) w := by
    intro h
    have h1 := (MethodByName_eq_none _ action).mpr h
    simp [Mapper.BindAction, h1, MethodByName_elem_none mx.typ action h1]
  have hok : (∃ m ∈ mx.typ.ptrMethods, m.name = action) →
      ∃ w', mx.BindAction method path action filters w = Setup.ok w' ∧
        w.routes.length < w'.routes.length ∧
        (mx.Name ++ "." ++ action, urlTemplate (mx.app.Prefix ++ mx.Prefix ++ path)) ∈
          w'.URLGen := by
    rintro ⟨m, hm, hname⟩
    cases hf : MethodByName mx.typ.ptrMethods action with
    | none => exact absurd hname ((MethodByName_eq_none _ action).mp hf m hm)
    | some m' =>
        refine ⟨mx.bindFound method path action filters true m' w,
          by simp [Mapper.BindAction, hf], ?_, ?_⟩
        · simp only [Mapper.bindFound, Kernel.AddHandlerContextName_eq, List.length_append,
            List.length_map]
          have := splitMethods_length_pos method
          omega
        · simp [Mapper.bindFound, Kernel.AddHandlerContextName_eq, mapSet]
  refine ⟨⟨?_, ?_⟩, hfail, hok⟩
  · rintro ⟨p, w', hp⟩
    by_contra hne
    push_neg at hne
    obtain ⟨w2, h2, _⟩ := hok hne
    rw [h2] at hp
    cases hp
  · intro h
    exact ⟨_, _, hfail h⟩

/-! ## Snapshots of a kernel -/

theorem slotGet_slotSet_same (slots : List (Nat × KernelDyn)) (i : Nat) (d : KernelDyn) :
    slotGet (slotSet slots i d) i = some d := by
  simp [slotGet, slotSet]

theorem find?_filter_ne (slots : List (Nat × KernelDyn)) (i j : Nat) (hij : i ≠ j) :
    (slots.filter (fun e => e.1 ≠ i)).find? (fun e => e.1 = j) =
      slots.find? (fun e => e.1 = j) := by
  induction slots with
  | nil => rfl
  | cons e t ih =>
      by_cases he : e.1 = i
      · have hej : ¬ e.1 = j := by rw [he]; exact hij
        rw [List.filter_cons_of_neg (by simpa using he),
          List.find?_cons_of_neg _ (by simpa using hej), ih]
      · rw [List.filter_cons_of_pos (by simpa using he)]
        by_cases hej : e.1 = j
        · rw [List.find?_cons_of_pos _ (by simpa using hej),
            List.find?_cons_of_pos _ (by simpa using hej)]
        · rw [List.find?_cons_of_neg _ (by simpa using hej),
            List.find?_cons_of_neg _ (by simpa using hej), ih]

theorem slotGet_slotSet_ne (slots : List (Nat × KernelDyn)) (i j : Nat) (d : KernelDyn)
    (h : j ≠ i) : slotGet (slotSet slots i d) j = slotGet slots j := by
  have hij : i ≠ j := fun e => h e.symm
  unfold slotGet slotSet
  rw [List.find?_cons_of_neg _ (by simpa using hij), find?_filter_ne slots i j hij]

theorem Store.Fork_scope?_old (st : Store) (p j : Nat) (hj : j < st.scopes.length) :
    ((st.Fork p).2.scope? j).map (fun sc => sc.parent) =
      (st.scope? j).map (fun sc => sc.parent) := by
  rw [Store.Fork_scope?_lt st p j hj]
  by_cases hpj : p = j
  · subst hpj
    rw [Store.scope?_modify_eq]
    cases st.scope? p <;> rfl
  · rw [Store.scope?_modify_ne st p j _ hpj]

/-- Forking a scope and binding a kernel in the new scope leaves the kernel that the
scopes allocated before resolve as it was. -/
theorem loadKernelAux_Fork (st : Store) (hwf : st.WellFormed) (p : Nat)
    (slots : List (Nat × KernelDyn)) (d : KernelDyn) :
    ∀ (n i : Nat), i < st.scopes.length →
      loadKernelAux n (st.Fork p).2 (slotSet slots st.scopes.length d) i =
        loadKernelAux n st slots i := by
  intro n
  induction n with
  | zero => intro i _; rfl
  | succ n ih =>
      intro i hi
      have hpar := Store.Fork_scope?_old st p i hi
      simp only [loadKernelAux]
      rw [slotGet_slotSet_ne slots st.scopes.length i d (Nat.ne_of_lt hi)]
      cases hs : st.scope? i with
      | none =>
          rw [hs] at hpar
          cases hs' : (st.Fork p).2.scope? i with
          | none => rfl
          | some sc' => rw [hs'] at hpar; cases hpar
      | some sc =>
          rw [hs] at hpar
          cases hs' : (st.Fork p).2.scope? i with
          | none => rw [hs'] at hpar; cases hpar
          | some sc' =>
              rw [hs'] at hpar
              simp only [Option.map_some', Option.some.injEq] at hpar
              simp only []
              cases slotGet slots i with
              | some d' => rfl
              | none =>
                  simp only [hpar]
                  cases hp : sc.parent with
                  | none => rfl
                  | some q =>
                      exact ih q (lt_trans (hwf i sc q hs hp) hi)

/-- C11, on the code: `Snapshot` of the kernel at `kp` returns a new kernel object whose
registry is a scope forked from the registry of `kp`, and the forked scope resolves
`KernelType` to the copy bound there; that copy is a `Kernel` struct and not a pointer, so
`Root` on the sub app panics in the type assertion of `GetKernel` instead of returning the
sub app. `Root` on the kernel at `kp` returns what it returned before. -/
theorem Snapshot_Root_panics (a : AppState) (kp : Nat) (kernel : Kernel)
    (hk : a.kernels[kp]? = some kernel) :
    ∃ sp a', Kernel.Snapshot kp a = Except.ok (sp, a') ∧ sp ≠ kp ∧
      a'.kernels[sp]? = some { kernel with Registry := (a.w.reg.Fork kernel.Registry).1 } ∧
      a'.w.reg.scope? (a.w.reg.Fork kernel.Registry).1 =
        some { bindings := [], parent := some kernel.Registry, liveChildren := 0,
               disposed := false } ∧
      a'.LoadKernelType (a.w.reg.Fork kernel.Registry).1 =
        some (KernelDyn.struct
          { kernel with Registry := (a.w.reg.Fork kernel.Registry).1 }) ∧
      Kernel.Root sp a' = Except.error kernelAssertionPanic ∧
      (a.w.reg.WellFormed → kernel.Registry < a.w.reg.scopes.length →
        Kernel.Root kp a' = Kernel.Root kp a) := by
  have hkp : kp < a.kernels.length := (List.getElem?_eq_some_iff.mp hk).1
  have hscope := (Store.Fork_scopes a.w.reg kernel.Registry).2.2
  have hload : loadKernelAux ((a.w.reg.Fork kernel.Registry).1 + 1)
      (a.w.reg.Fork kernel.Registry).2
      (slotSet a.kernelSlots (a.w.reg.Fork kernel.Registry).1
        (KernelDyn.struct { kernel with Registry := (a.w.reg.Fork kernel.Registry).1 }))
      (a.w.reg.Fork kernel.Registry).1 =
      some (KernelDyn.struct
        { kernel with Registry := (a.w.reg.Fork kernel.Registry).1 }) := by
    simp only [loadKernelAux, hscope, slotGet_slotSet_same]
  refine ⟨a.kernels.length,
    { w := { a.w with reg := (a.w.reg.Fork kernel.Registry).2 },
      kernels := a.kernels ++
        [{ kernel with Registry := (a.w.reg.Fork kernel.Registry).1 }],
      kernelSlots := slotSet a.kernelSlots (a.w.reg.Fork kernel.Registry).1
        (KernelDyn.struct { kernel with Registry := (a.w.reg.Fork kernel.Registry).1 }) },
    by simp [Kernel.Snapshot, hk], Nat.ne_of_gt hkp, ?_, hscope, hload, ?_, ?_⟩
  · simp
  · simp only [Kernel.Root, List.getElem?_append_right (le_refl _), Nat.sub_self,
      List.getElem?_cons_zero, GetKernel, AppState.LoadKernelType, hload]
  · intro hwf hreg
    have hold : (a.kernels ++
        [{ kernel with Registry := (a.w.reg.Fork kernel.Registry).1 }])[kp]? =
        some kernel := by
      rw [List.getElem?_append_left hkp, hk]
    simp only [Kernel.Root, hold, hk, GetKernel, AppState.LoadKernelType]
    rw [(Store.Fork_scopes a.w.reg kernel.Registry).1,
      loadKernelAux_Fork a.w.reg hwf kernel.Registry a.kernelSlots _ _ _ hreg]

/-- Concrete instance: the snapshot of a new kernel. -/
theorem Snapshot_Root_panics_witness :
    ∃ sp a', Kernel.Snapshot 0 NewKernel.2 = Except.ok (sp, a') ∧ sp ≠ 0 ∧
      a'.kernels[sp]? =
        some { ({ handlers := [], Registry := 0, Prefix := "" } : Kernel) with
          Registry := (NewKernel.2.w.reg.Fork
            ({ handlers := [], Registry := 0, Prefix := "" } : Kernel).Registry).1 } ∧
      a'.w.reg.scope? (NewKernel.2.w.reg.Fork
          ({ handlers := [], Registry := 0, Prefix := "" } : Kernel).Registry).1 =
        some { bindings := [],
               parent := some ({ handlers := [], Registry := 0, Prefix := "" } : Kernel).Registry,
               liveChildren := 0, disposed := false } ∧
      a'.LoadKernelType (NewKernel.2.w.reg.Fork
          ({ handlers := [], Registry := 0, Prefix := "" } : Kernel).Registry).1 =
        some (KernelDyn.struct
          { ({ handlers := [], Registry := 0, Prefix := "" } : Kernel) with
            Registry := (NewKernel.2.w.reg.Fork
              ({ handlers := [], Registry := 0, Prefix := "" } : Kernel).Registry).1 }) ∧
      Kernel.Root sp a' = Except.error kernelAssertionPanic ∧
      (NewKernel.2.w.reg.WellFormed →
        ({ handlers := [], Registry := 0, Prefix := "" } : Kernel).Registry <
          NewKernel.2.w.reg.scopes.length →
        Kernel.Root 0 a' = Kernel.Root 0 NewKernel.2) :=
  Snapshot_Root_panics NewKernel.2 0 { handlers := [], Registry := 0, Prefix := "" } rfl

/-! ## Components, registered chains and disposer bundles -/

theorem Store.modify_length (st : Store) (i : Nat) (f : Scope → Scope) :
    (st.modify i f).scopes.length = st.scopes.length := by
  simp [Store.modify]

theorem Boot.Bootstrap_keeps (b : Boot) :
    ∀ (app : Kernel) (w : World),
      (b.Bootstrap app w).1.Registry = app.Registry ∧
      (b.Bootstrap app w).2.reg.scopes.length = w.reg.scopes.length := by
  induction b with
  | done => intro app w; exact ⟨rfl, rfl⟩
  | setPrefix p k ih => intro app w; exact ih { app with Prefix := p } w
  | bind key v k ih =>
      intro app w
      have h := ih app { w with reg := w.reg.bind app.Registry key (Binding.value v) }
      simp only [Boot.Bootstrap]
      exact ⟨h.1, by rw [h.2]; exact Store.modify_length _ _ _⟩
  | addMiddleware hs k ih =>
      intro app w
      exact ih { app with handlers := (app.toMiddlewareBundle.AddMiddleware hs).handlers } w
  | addHandler method path h k ih =>
      intro app w
      have h1 := ih app (app.AddHandler method path h [] w)
      simp only [Boot.Bootstrap]
      refine ⟨h1.1, ?_⟩
      rw [h1.2]
      simp [Kernel.AddHandler, Kernel.AddHandlerName, Kernel.AddHandlerContextName_eq]

theorem bootstrapAll_keeps (pfx : String) (bs : List Boot) :
    ∀ (app : Kernel) (w : World),
      (bootstrapAll pfx bs app w).1.Registry = app.Registry ∧
      (bootstrapAll pfx bs app w).2.reg.scopes.length = w.reg.scopes.length ∧
      (app.Prefix = pfx → (bootstrapAll pfx bs app w).1.Prefix = pfx) ∧
      ∀ x ∈ bootstrapHanded pfx bs app w,
        x.Registry = app.Registry ∧ (app.Prefix = pfx → x.Prefix = pfx) := by
  induction bs with
  | nil => intro app w; exact ⟨rfl, rfl, fun h => h, by simp [bootstrapHanded]⟩
  | cons b rest ih =>
      intro app w
      have hb := Boot.Bootstrap_keeps b app w
      have hr := ih { (b.Bootstrap app w).1 with Prefix := pfx } (b.Bootstrap app w).2
      refine ⟨hr.1.trans hb.1, hr.2.1.trans hb.2, fun _ => hr.2.2.1 rfl, ?_⟩
      intro x hx
      simp only [bootstrapHanded, List.mem_cons] at hx
      rcases hx with hx | hx
      · subst hx; exact ⟨rfl, fun h => h⟩
      · have := hr.2.2.2 x hx
        exact ⟨this.1.trans hb.1, fun _ => this.2 rfl⟩

/-- C12, on the code: `AddComponents` works on a copy of the kernel made by `Kernel.Fork`,
which keeps the registry of the original: every component is handed the scope
`kernel.Registry` itself, no scope is created, and a value a component binds on the
registry it is handed is resolved through `kernel.Registry`. The part of the claim about
`Prefix` holds: every component is handed the copy with the `Prefix` of the kernel, the
copy ends with that `Prefix`, and a route a later component adds is not under the
`Prefix` an earlier component set. -/
theorem AddComponents_shares_registry (kernel : Kernel) (b : List Boot) (w : World) :
    kernel.Fork.Registry = kernel.Registry ∧
    (∀ x ∈ bootstrapHanded kernel.Prefix b kernel.Fork w,
      x.Registry = kernel.Registry ∧ x.Prefix = kernel.Prefix) ∧
    (kernel.AddComponents b w).2.reg.scopes.length = w.reg.scopes.length ∧
    (kernel.AddComponents b w).1.Prefix = kernel.Prefix ∧
    (∀ key v sc, w.reg.scope? kernel.Registry = some sc →
      ((kernel.AddComponents [Boot.bind key v Boot.done] w).2.reg.resolve
        kernel.Registry key).1 = Except.ok v) ∧
    (∀ p method path h,
      (kernel.AddComponents
        [Boot.setPrefix p Boot.done, Boot.addHandler method path h Boot.done] w).2.routes =
        (kernel.Fork.AddHandler method path h [] w).routes) := by
  have hk := bootstrapAll_keeps kernel.Prefix b kernel.Fork w
  refine ⟨rfl, ?_, hk.2.1, hk.2.2.1 rfl, ?_, ?_⟩
  · intro x hx
    exact ⟨(hk.2.2.2 x hx).1, (hk.2.2.2 x hx).2 rfl⟩
  · intro key v sc hsc
    exact Store.resolve_bound_value w.reg kernel.Registry sc key v hsc
  · intro p method path h
    rfl

/-- A call of `Next` with a handler remaining enters that handler, and then handlers of
the remaining sequence in order. -/
theorem Next_enters_head (c : Context) (w : World) (hne : c.handlers ≠ []) :
    ∃ m c' w', (c.Next w).state = some (c', w') ∧
      w'.invoked = w.invoked ++ (invocationsOf c.handlers).take (m + 1) := by
  obtain ⟨h, rest, hh⟩ := List.exists_cons_of_ne_nil hne
  obtain ⟨m, c', w', hs, _, hl⟩ := Next_advances c w
  cases m with
  | zero =>
      exfalso
      have h1 : (c.Next w).trace = some (c', w.invoked) := by
        simp [Res.trace, hs, hl]
      have h2 := NextAt_cons_trace rest.length c w h rest hh
      have h3 : c.Next w = NextAt (rest.length + 1) c w := by
        simp [Context.Next, hh]
      rw [← h3, h1] at h2
      obtain ⟨m2, c2, w2, hs2, _, hl2⟩ := execWith_advances (NextAt rest.length) rest.length
        (fun c w hL => NextAt_advances rest.length c w hL) h.body
        { c with handlers := rest }
        { w with invoked := w.invoked ++ [⟨h.id, rest.map (fun x => x.id)⟩] }
        { w with invoked := w.invoked ++ [⟨h.id, rest.map (fun x => x.id)⟩] } (le_refl _) rfl
      simp only [Res.trace, hs2, Option.map_some', Option.some.injEq, Prod.mk.injEq] at h2
      have := congrArg List.length h2.2
      rw [hl2] at this
      simp at this
  | succ m => exact ⟨m, c', w', hs, hl⟩

theorem DispatchNext_enters_head (c : Context) (name : String) (rw r : Option Nat)
    (v : List (String × String)) (s : Nat) (hs : List Handler) (hne : hs ≠ []) (w : World) :
    ∃ m c' w', (DispatchNext c name rw r v s hs w).state = some (c', w') ∧
      w'.invoked = w.invoked ++ (invocationsOf hs).take (m + 1) :=
  Next_enters_head
    { c with Name := name, Response := rw, Request := r, Params := v,
             Registry := some s, handlers := hs } w hne

/-- C13: a route registered by `AddHandlerContextName` carries the chain kernel middleware,
filters, handler, and that chain is what the callback dispatches: serving a request enters
its first handler and then handlers of the chain in order; middleware added to the kernel
afterwards only shows in routes registered later; a route bound by `BindAction` carries
kernel middleware, mapper middleware, filters and the controller handler. -/
theorem registered_route_dispatches_chain (kernel : Kernel) (registry : Option Nat)
    (name method path : String) (h : Handler) (F : List Handler) (w : World) :
    (∃ new, new ≠ [] ∧
      (kernel.AddHandlerContextName registry name method path h F w).routes =
        w.routes ++ new ∧
      ∀ rt ∈ new, rt.filters = kernel.handlers ++ F ++ [h]) ∧
    (∀ (rt : Route) (rw r : Option Nat) (v : List (String × String)) (w0 : World),
      rt.filters = kernel.handlers ++ F ++ [h] →
      rt.dispatch rw r v w0 =
        DispatchNext (newRequestContext w0).1 rt.name rw r v
          ((newRequestContext w0).2.reg.Fork rt.registry).1 (kernel.handlers ++ F ++ [h])
          { (newRequestContext w0).2 with
              reg := ((newRequestContext w0).2.reg.Fork rt.registry).2 } ∧
      ∃ m c' w1, (rt.dispatch rw r v w0).state = some (c', w1) ∧
        w1.invoked = w0.invoked ++
          (invocationsOf (kernel.handlers ++ F ++ [h])).take (m + 1)) ∧
    (∀ (more : List Handler) (name2 method2 path2 : String) (h2 : Handler)
        (F2 : List Handler),
      ∃ new2,
        (Kernel.AddHandlerContextName
          { kernel with handlers := (kernel.toMiddlewareBundle.AddMiddleware more).handlers }
          registry name2 method2 path2 h2 F2
          (kernel.AddHandlerContextName registry name method path h F w)).routes =
          (kernel.AddHandlerContextName registry name method path h F w).routes ++ new2 ∧
        ∀ rt ∈ new2, rt.filters = kernel.handlers ++ more ++ F2 ++ [h2]) ∧
    (∀ (mx : Mapper) (action : String) (m : Method), mx.app = kernel →
      MethodByName mx.typ.ptrMethods action = some m →
      ∃ new w2, new ≠ [] ∧ mx.BindAction method path action F w = Setup.ok w2 ∧
        w2.routes = w.routes ++ new ∧
        ∀ rt ∈ new,
          rt.filters = kernel.handlers ++ mx.handlers ++ F ++ [controllerHandler true m]) := by
  have hsplit : ∀ method : String, (splitMethods method) ≠ [] := fun method =>
    List.ne_nil_of_length_pos (splitMethods_length_pos method)
  refine ⟨?_, ?_, ?_, ?_⟩
  · refine ⟨_, ?_, by rw [Kernel.AddHandlerContextName_eq], ?_⟩
    · simpa using hsplit method
    · intro rt hrt
      simp only [List.mem_map] at hrt
      obtain ⟨_, _, rfl⟩ := hrt
      rfl
  · intro rt rw r v w0 hrt
    refine ⟨by simp only [Route.dispatch, hrt], ?_⟩
    have hinv : (newRequestContext w0).2.invoked = w0.invoked := by
      unfold newRequestContext
      split <;> rfl
    obtain ⟨m, c', w1, hs, hl⟩ := DispatchNext_enters_head (newRequestContext w0).1 rt.name
      rw r v ((newRequestContext w0).2.reg.Fork rt.registry).1
      (kernel.handlers ++ F ++ [h]) (by simp)
      { (newRequestContext w0).2 with
          reg := ((newRequestContext w0).2.reg.Fork rt.registry).2 }
    refine ⟨m, c', w1, by simpa only [Route.dispatch, hrt] using hs, ?_⟩
    rw [hl]
    simp only [hinv]
  · intro more name2 method2 path2 h2 F2
    refine ⟨_, by rw [Kernel.AddHandlerContextName_eq], ?_⟩
    intro rt hrt
    simp only [List.mem_map] at hrt
    obtain ⟨_, _, rfl⟩ := hrt
    simp [MiddlewareBundle.AddMiddleware]
  · intro mx action m happ hm
    refine ⟨(splitMethods method).map (fun x =>
        { method := x, path := mx.app.Prefix ++ (mx.Prefix ++ path),
          registry := mx.Registry.getD mx.app.Registry, name := mx.Name,
          filters := mx.app.handlers ++ mx.reSlice F ++ [controllerHandler true m] }),
      mx.bindFound method path action F true m w, ?_,
      by simp [Mapper.BindAction, hm], ?_, ?_⟩
    · simpa using hsplit method
    · simp only [Mapper.bindFound, Kernel.AddHandlerContextName_eq]
    · intro rt hrt
      simp only [List.mem_map] at hrt
      obtain ⟨_, _, rfl⟩ := hrt
      simp [happ, MiddlewareBundle.reSlice]

/-- C14, on the code: `DisposerBundle` calls `Dispose` on nothing, whatever its arguments
are, because it looks for a `Disposer` only in arguments that are nil; the claim asks for
one call per non-nil `Disposer`, in order, which is what `CloserDisposerBundle` and
`CancelDisposerBundle` do with `Close` and `Cancel`. With a single `Disposer` as argument
the log stays empty. -/
theorem DisposerBundle_disposes_nothing (disposers : List AnyArg)
    (closers : List (Option Nat)) (log : List Nat) :
    DisposerBundle disposers log = log ∧
    CloserDisposerBundle closers log = log ++ closers.filterMap id ∧
    CancelDisposerBundle closers log = log ++ closers.filterMap id ∧
    DisposerBundle [AnyArg.disposer 1] [] = [] ∧
    DisposerBundle [AnyArg.disposer 1] [] ≠
      [] ++ [AnyArg.disposer 1].filterMap AnyArg.asDisposer := by
  have hclose : ∀ (cs : List (Option Nat)) (l : List Nat),
      cs.foldl (fun log ifa => match ifa with
        | some closer => log ++ [closer]
        | none => log) l = l ++ cs.filterMap id := by
    intro cs
    induction cs with
    | nil => intro l; simp
    | cons c t ih =>
        intro l
        cases c with
        | none => simpa using ih l
        | some x => simp [ih, List.append_assoc]
  refine ⟨?_, hclose closers log, hclose closers log, by decide, by decide⟩
  unfold DisposerBundle
  induction disposers generalizing log with
  | nil => rfl
  | cons d t ih =>
      rw [List.foldl_cons]
      cases d with
      | nil => simpa [AnyArg.asDisposer] using ih log
      | disposer id => simpa using ih log
      | other id => simpa using ih log

/-! ## URL templates -/

theorem splitSlash_cons (l : List Char) : ∃ p0 segs, splitSlash l = p0 :: segs := by
  induction l with
  | nil => exact ⟨[], [], rfl⟩
  | cons c rest ih =>
      obtain ⟨q, segs, hq⟩ := ih
      unfold splitSlash
      by_cases hc : c = '/'
      · exact ⟨[], splitSlash rest, by simp [hc]⟩
      · exact ⟨c :: q, segs, by simp [hc, hq]⟩

theorem splitSlash_slash (rest : List Char) :
    splitSlash ('/' :: rest) = [] :: splitSlash rest := by
  simp [splitSlash]

theorem splitSlash_other (c : Char) (rest q : List Char) (segs : List (List Char))
    (hc : c ≠ '/') (hq : splitSlash rest = q :: segs) :
    splitSlash (c :: rest) = (c :: q) :: segs := by
  simp [splitSlash, hc, hq]

/-- The look-ahead of the scan after a `/` sees a parameter exactly when the segment that
starts there is a parameter segment. -/
theorem paramMarker_eq_segMarker (rest q : List Char) (segs : List (List Char))
    (hq : splitSlash rest = q :: segs) : paramMarker rest = segMarker q := by
  cases rest with
  | nil =>
      simp [splitSlash] at hq
      obtain ⟨h1, _⟩ := hq
      subst h1
      rfl
  | cons m r =>
      by_cases hm : m = '/'
      · subst hm
        rw [splitSlash_slash] at hq
        simp only [List.cons.injEq] at hq
        obtain ⟨h1, _⟩ := hq
        subst h1
        cases r <;> simp [paramMarker, segMarker]
      · obtain ⟨q1, segs1, hq1⟩ := splitSlash_cons r
        rw [splitSlash_other m r q1 segs1 hm hq1] at hq
        simp only [List.cons.injEq] at hq
        obtain ⟨h1, _⟩ := hq
        subst h1
        cases r with
        | nil =>
            simp [splitSlash] at hq1
            obtain ⟨h2, _⟩ := hq1
            subst h2
            simp [paramMarker, segMarker]
        | cons n r' =>
            by_cases hn : n = '/'
            · subst hn
              rw [splitSlash_slash] at hq1
              simp only [List.cons.injEq] at hq1
              obtain ⟨h2, _⟩ := hq1
              subst h2
              simp [paramMarker, segMarker]
            · obtain ⟨q2, segs2, hq2⟩ := splitSlash_cons r'
              rw [splitSlash_other n r' q2 segs2 hn hq2] at hq1
              simp only [List.cons.injEq] at hq1
              obtain ⟨h2, _⟩ := hq1
              subst h2
              simp [paramMarker, segMarker, hn]

/-- The scan of `acReplace` and the replacement segment by segment give the same text. -/
theorem acReplace_segments : ∀ (l : List Char) (skip : Bool) (p0 : List Char)
    (segs : List (List Char)), splitSlash l = p0 :: segs →
    acReplace skip l = (if skip then [] else p0) ++ segsTemplate segs := by
  intro l
  induction l with
  | nil =>
      intro skip p0 segs h
      simp [splitSlash] at h
      obtain ⟨h1, h2⟩ := h
      subst h1 h2
      cases skip <;> rfl
  | cons c rest ih =>
      intro skip p0 segs h
      obtain ⟨q, segs1, hq⟩ := splitSlash_cons rest
      by_cases hc : c = '/'
      · subst hc
        rw [splitSlash_slash, hq] at h
        simp only [List.cons.injEq] at h
        obtain ⟨h1, h2⟩ := h
        subst h1 h2
        have hm := paramMarker_eq_segMarker rest q segs1 hq
        simp only [acReplace, if_true, hm]
        cases hs : segMarker q with
        | some m =>
            simp only [segsTemplate, segTemplate, hs]
            rw [ih true q segs1 hq]
            cases skip <;> simp
        | none =>
            simp only [segsTemplate, segTemplate, hs]
            rw [ih false q segs1 hq]
            cases skip <;> simp
      · rw [splitSlash_other c rest q segs1 hc hq] at h
        simp only [List.cons.injEq] at h
        obtain ⟨h1, h2⟩ := h
        subst h1 h2
        simp only [acReplace, hc, if_false]
        cases skip with
        | true => simpa using ih true q segs1 hq
        | false => simpa using ih false q segs1 hq

theorem acReplace_eq_templateBySegments (l : List Char) :
    acReplace false l = templateBySegments l := by
  obtain ⟨p0, segs, h⟩ := splitSlash_cons l
  rw [acReplace_segments l false p0 segs h]
  simp [templateBySegments, h]

theorem occPV_cons (c : Char) (rest : List Char) :
    occPV (c :: rest) = (if c = '%' ∧ rest.head? = some 'v' then 1 else 0) + occPV rest :=
  rfl

theorem occPV_append (a b : List Char) (hb : b.head? ≠ some 'v') :
    occPV (a ++ b) = occPV a + occPV b := by
  induction a with
  | nil => simp [occPV]
  | cons c a' ih =>
      cases a' with
      | nil =>
          simp only [List.cons_append, List.nil_append, occPV]
          simp [hb]
      | cons d a'' =>
          simp only [List.cons_append] at ih ⊢
          rw [occPV_cons c, occPV_cons c (d :: a''), ih]
          simp only [List.head?_cons]
          omega

theorem segTemplate_head (s : List Char) (rest : List Char) :
    (segTemplate s ++ rest).head? ≠ some 'v' := by
  unfold segTemplate
  cases segMarker s with
  | none => simp
  | some m => by_cases hm : m = '*' <;> simp [hm]

theorem segsTemplate_head (segs : List (List Char)) :
    (segsTemplate segs).head? ≠ some 'v' := by
  cases segs with
  | nil => simp [segsTemplate]
  | cons s rest => exact segTemplate_head s _

theorem segsKept_head (segs : List (List Char)) : (segsKept segs).head? ≠ some 'v' := by
  induction segs with
  | nil => simp [segsKept]
  | cons s rest ih =>
      unfold segsKept
      cases (segMarker s).isSome with
      | true => simpa using ih
      | false => simp

theorem occPV_segsTemplate (segs : List (List Char)) :
    occPV (segsTemplate segs) =
      segs.countP (fun s => (segMarker s).isSome) + occPV (segsKept segs) := by
  induction segs with
  | nil => rfl
  | cons s rest ih =>
      simp only [segsTemplate, segsKept, List.countP_cons]
      rw [occPV_append _ _ (segsTemplate_head rest), ih]
      cases hs : segMarker s with
      | some m =>
          have h1 : occPV (segTemplate s) = 1 := by
            unfold segTemplate
            rw [hs]
            by_cases hm : m = '*' <;> simp [hm, occPV]
          simp [h1]
          omega
      | none =>
          have h1 : segTemplate s = '/' :: s := by
            unfold segTemplate
            rw [hs]
          rw [h1]
          simp only [Option.isSome_none, Bool.false_eq_true, if_false, Nat.add_zero]
          rw [occPV_append _ _ (segsKept_head rest)]
          omega

/-- The template holds one `%v` per parameter segment of the path, besides those of the
text outside the parameter segments. -/
theorem occPV_acReplace (l : List Char) :
    occPV (acReplace false l) = paramSegments l + occPV (keptText l) := by
  obtain ⟨p0, segs, h⟩ := splitSlash_cons l
  rw [acReplace_segments l false p0 segs h]
  simp only [paramSegments, keptText, h, Bool.false_eq_true, if_false]
  rw [occPV_append _ _ (segsTemplate_head segs), occPV_append _ _ (segsKept_head segs),
    occPV_segsTemplate]
  omega

theorem hasParam_iff_segments : ∀ (l : List Char) (p0 : List Char) (segs : List (List Char)),
    splitSlash l = p0 :: segs →
    (hasParam l = true ↔ 0 < segs.countP (fun s => (segMarker s).isSome)) := by
  intro l
  induction l with
  | nil =>
      intro p0 segs h
      simp [splitSlash] at h
      obtain ⟨_, h2⟩ := h
      subst h2
      simp [hasParam]
  | cons c rest ih =>
      intro p0 segs h
      obtain ⟨q, segs1, hq⟩ := splitSlash_cons rest
      have ihq := ih q segs1 hq
      by_cases hc : c = '/'
      · subst hc
        rw [splitSlash_slash, hq] at h
        simp only [List.cons.injEq] at h
        obtain ⟨_, h2⟩ := h
        subst h2
        simp only [hasParam, decide_True, Bool.true_and, Bool.or_eq_true,
          paramMarker_eq_segMarker rest q segs1 hq, ihq, List.countP_cons]
        cases (segMarker q).isSome <;> simp
      · rw [splitSlash_other c rest q segs1 hc hq] at h
        simp only [List.cons.injEq] at h
        obtain ⟨_, h2⟩ := h
        subst h2
        simp only [hasParam, hc, decide_False, Bool.false_and, Bool.false_or, ihq]

theorem hasParam_false_iff (l : List Char) : hasParam l = false ↔ paramSegments l = 0 := by
  obtain ⟨p0, segs, h⟩ := splitSlash_cons l
  have := hasParam_iff_segments l p0 segs h
  simp only [paramSegments, h]
  rw [← Bool.not_eq_true, this]
  omega

theorem acReplace_unchanged : ∀ l : List Char, hasParam l = false → acReplace false l = l := by
  intro l
  induction l with
  | nil => intro _; rfl
  | cons c rest ih =>
      intro h
      simp only [hasParam, Bool.or_eq_false_iff, Bool.and_eq_false_iff] at h
      by_cases hc : c = '/'
      · subst hc
        have hm : paramMarker rest = none := by
          rcases h.1 with h1 | h1
          · simp at h1
          · simpa using h1
        simp [acReplace, hm, ih h.2]
      · simp [acReplace, hc, ih h.2]

theorem paramMarker_mem (l : List Char) (m : Char) (h : paramMarker l = some m) :
    m = ':' ∨ m = '*' := by
  cases l with
  | nil => simp [paramMarker] at h
  | cons a t =>
      cases t with
      | nil => simp [paramMarker] at h
      | cons n t' =>
          simp only [paramMarker] at h
          split at h
          · rename_i hc
            cases h
            exact hc.1
          · cases h

theorem paramMarker_slash (l : List Char) : paramMarker ('/' :: l) = none := by
  cases l <;> simp [paramMarker]

theorem paramMarker_percent (l : List Char) : paramMarker ('%' :: l) = none := by
  cases l <;> simp [paramMarker]

/-- After a `/` that starts no parameter, the replaced text starts no parameter either,
unless a lone marker is directly followed by a wildcard segment. -/
theorem paramMarker_acReplace (rest : List Char) (hm : paramMarker rest = none)
    (hpat : loneWildAt rest = false) :
    paramMarker (acReplace false rest) = none := by
  cases rest with
  | nil => rfl
  | cons a t =>
      by_cases ha : a = '/'
      · subst ha
        simp only [acReplace, if_true]
        cases hp : paramMarker t with
        | none => exact paramMarker_slash _
        | some m =>
            by_cases hs : m = '*'
            · simp only [hs, if_true, List.cons_append, List.nil_append]
              exact paramMarker_percent _
            · simp only [hs, if_false, List.cons_append, List.nil_append]
              exact paramMarker_slash _
      · simp only [acReplace, ha, if_false]
        by_cases hmk : a = ':' ∨ a = '*'
        · cases t with
          | nil => simp [acReplace, paramMarker]
          | cons n t3 =>
              have hn : n = '/' := by
                by_contra hne
                simp [paramMarker, hmk, hne] at hm
              subst hn
              simp only [loneWildAt, hmk, decide_True, Bool.true_and,
                decide_eq_false_iff_not] at hpat
              simp only [acReplace, if_true]
              cases hp : paramMarker t3 with
              | none => simp [paramMarker]
              | some m =>
                  have hs : m ≠ '*' := by
                    intro hs
                    rw [hp, hs] at hpat
                    exact hpat rfl
                  simp [hs, paramMarker]
        · cases hY : acReplace false t with
          | nil => simp [paramMarker]
          | cons y Y => simp [paramMarker, hmk]

/-- No parameter is left in the template of a path without a lone marker directly
followed by a wildcard segment. -/
theorem hasParam_acReplace : ∀ (l : List Char) (skip : Bool), loneThenWild l = false →
    hasParam (acReplace skip l) = false := by
  intro l
  induction l with
  | nil => intro skip _; rfl
  | cons c rest ih =>
      intro skip h
      simp only [loneThenWild, Bool.or_eq_false_iff] at h
      by_cases hc : c = '/'
      · subst hc
        simp only [decide_True, Bool.true_and] at h
        simp only [acReplace, if_true]
        cases hp : paramMarker rest with
        | none =>
            simp only [hasParam, decide_True, Bool.true_and, ih false h.2, Bool.or_false]
            rw [paramMarker_acReplace rest hp h.1]
            rfl
        | some m =>
            by_cases hs : m = '*'
            · simp [hs, hasParam, paramMarker_percent, ih true h.2]
            · simp [hs, hasParam, paramMarker_percent, ih true h.2]
      · simp only [acReplace, hc, if_false]
        cases skip with
        | true => simpa using ih true h.2
        | false => simp [hasParam, hc, ih false h.2]

theorem mapGet_mapSet (m : List (String × String)) (k v : String) :
    mapGet (mapSet m k v) k = some v := by
  simp [mapGet, mapSet]

/-- C15, as the code has it: for an action of the controller, `BindAction` stores under
`Name.action` the template of the full route path, prefix of the kernel, prefix of the
mapper and path, which is the path it registers; the template is the path with each
segment `/:name` replaced by `/%v` and each segment `/*name` replaced by `%v`; it holds one
`%v` per parameter segment besides the `%v` of the text outside the parameter segments;
no parameter segment is left in it when the path has no lone `:` or `*` segment directly
followed by a wildcard segment; a path without parameter segments is stored unchanged. -/
theorem BindAction_stores_url_template (mx : Mapper) (method path action : String)
    (filters : List Handler) (w : World) (m : Method)
    (hm : MethodByName mx.typ.ptrMethods action = some m) :
    ∃ w', mx.BindAction method path action filters w = Setup.ok w' ∧
      mapGet w'.URLGen (mx.Name ++ "." ++ action) =
        some (urlTemplate (mx.app.Prefix ++ mx.Prefix ++ path)) ∧
      (∃ new, w'.routes = w.routes ++ new ∧
        ∀ rt ∈ new, rt.path = mx.app.Prefix ++ mx.Prefix ++ path) ∧
      (urlTemplate (mx.app.Prefix ++ mx.Prefix ++ path)).data =
        templateBySegments (mx.app.Prefix ++ mx.Prefix ++ path).data ∧
      occPV (urlTemplate (mx.app.Prefix ++ mx.Prefix ++ path)).data =
        paramSegments (mx.app.Prefix ++ mx.Prefix ++ path).data +
          occPV (keptText (mx.app.Prefix ++ mx.Prefix ++ path).data) ∧
      (loneThenWild (mx.app.Prefix ++ mx.Prefix ++ path).data = false →
        paramSegments (urlTemplate (mx.app.Prefix ++ mx.Prefix ++ path)).data = 0) ∧
      (paramSegments (mx.app.Prefix ++ mx.Prefix ++ path).data = 0 →
        urlTemplate (mx.app.Prefix ++ mx.Prefix ++ path) =
          mx.app.Prefix ++ mx.Prefix ++ path) := by
  refine ⟨mx.bindFound method path action filters true m w,
    by simp [Mapper.BindAction, hm], ?_, ?_, ?_, ?_, ?_, ?_⟩
  · simp only [Mapper.bindFound, Kernel.AddHandlerContextName_eq]
    exact mapGet_mapSet _ _ _
  · refine ⟨(splitMethods method).map (fun x =>
        { method := x, path := mx.app.Prefix ++ (mx.Prefix ++ path),
          registry := mx.Registry.getD mx.app.Registry, name := mx.Name,
          filters := mx.app.handlers ++ mx.reSlice filters ++ [controllerHandler true m] }),
      by simp only [Mapper.bindFound, Kernel.AddHandlerContextName_eq], ?_⟩
    intro rt hrt
    simp only [List.mem_map] at hrt
    obtain ⟨_, _, rfl⟩ := hrt
    exact (String.append_assoc _ _ _).symm
  · exact acReplace_eq_templateBySegments _
  · exact occPV_acReplace _
  · intro hl
    exact (hasParam_false_iff _).mp (hasParam_acReplace _ false hl)
  · intro hp
    have h := acReplace_unchanged _ ((hasParam_false_iff _).mpr hp)
    unfold urlTemplate
    rw [h]

/-- Concrete instance: the action `Show` bound to a path with a named and a wildcard
parameter. -/
theorem BindAction_stores_url_template_witness :
    ∃ w', usersMapper.BindAction "GET" "/users/:id/files/*path" "Show" [] World.fresh =
        Setup.ok w' ∧
      mapGet w'.URLGen (usersMapper.Name ++ "." ++ "Show") =
        some (urlTemplate
          (usersMapper.app.Prefix ++ usersMapper.Prefix ++ "/users/:id/files/*path")) ∧
      (∃ new, w'.routes = World.fresh.routes ++ new ∧
        ∀ rt ∈ new, rt.path =
          usersMapper.app.Prefix ++ usersMapper.Prefix ++ "/users/:id/files/*path") ∧
      (urlTemplate
          (usersMapper.app.Prefix ++ usersMapper.Prefix ++ "/users/:id/files/*path")).data =
        templateBySegments
          (usersMapper.app.Prefix ++ usersMapper.Prefix ++ "/users/:id/files/*path").data ∧
      occPV (urlTemplate
          (usersMapper.app.Prefix ++ usersMapper.Prefix ++ "/users/:id/files/*path")).data =
        paramSegments
            (usersMapper.app.Prefix ++ usersMapper.Prefix ++ "/users/:id/files/*path").data +
          occPV (keptText
            (usersMapper.app.Prefix ++ usersMapper.Prefix ++
              "/users/:id/files/*path").data) ∧
      (loneThenWild
          (usersMapper.app.Prefix ++ usersMapper.Prefix ++ "/users/:id/files/*path").data =
          false →
        paramSegments (urlTemplate
          (usersMapper.app.Prefix ++ usersMapper.Prefix ++
            "/users/:id/files/*path")).data = 0) ∧
      (paramSegments
          (usersMapper.app.Prefix ++ usersMapper.Prefix ++ "/users/:id/files/*path").data =
          0 →
        urlTemplate
            (usersMapper.app.Prefix ++ usersMapper.Prefix ++ "/users/:id/files/*path") =
          usersMapper.app.Prefix ++ usersMapper.Prefix ++ "/users/:id/files/*path") :=
  BindAction_stores_url_template usersMapper "GET" "/users/:id/files/*path" "Show" []
    World.fresh ⟨"Show", ⟨1, Prog.done⟩⟩ (by decide)

/-- C15 as stated fails: bound to the path `/a%v/:id`, which has one parameter segment,
the action gets a template with two `%v`; and the template of `/:/*x` is `/:%v`, in which
a parameter segment is left. -/
theorem url_template_counterexample :
    (∃ w', usersMapper.BindAction "GET" "/a%v/:id" "Show" [] World.fresh = Setup.ok w' ∧
      mapGet w'.URLGen "Users.Show" = some "/a%v/%v" ∧
      paramSegments "/a%v/:id".data = 1 ∧ occPV "/a%v/%v".data = 2) ∧
    (∃ w', usersMapper.BindAction "GET" "/:/*x" "Show" [] World.fresh = Setup.ok w' ∧
      mapGet w'.URLGen "Users.Show" = some "/:%v" ∧
      paramSegments "/:%v".data = 1) ∧
    ¬ (∀ p : String, occPV (urlTemplate p).data = paramSegments p.data ∧
        paramSegments (urlTemplate p).data = 0) := by
  refine ⟨⟨_, rfl, by decide, by decide, by decide⟩, ⟨_, rfl, by decide, by decide⟩, ?_⟩
  intro h
  have h1 := (h "/a%v/:id").1
  revert h1
  decide

end Cloudy
